import Mathlib

/-!
Shallow embedding of the graph / cluster / spine engine of the repository
(src/interpreter: graph.py, weights.py, builder.py, cluster.py, spines.py),
together with theorems settling the specification claims about it.

Modelling conventions:
* Python floats are embedded as exact rationals (ℚ).
* Python dicts are embedded as insertion-ordered association lists
  (`List (String × β)`): lookup scans for the first matching key, an update
  of an existing key keeps its position, a new key is appended at the end.
* Python sets that are only used for membership are embedded as lists with
  explicit membership checks.
* Fallible code (a raw `g.nodes[nid]` dict index that raises `KeyError` for
  an unknown id) is embedded as an `Option`-returning function; `none`
  models the raised exception.
* Loops whose termination is not structural are embedded with an explicit
  fuel parameter, always called with provably sufficient fuel.
-/

namespace Y

/-- Node type tags (semantic_types.NodeType). -/
inductive NodeType where
  | TERM
  | CONCEPT
  | MOTIF
  | TENSION
  | BODY_SEED
deriving DecidableEq, Repr

/-- Edge relation tags (semantic_types.EdgeRel). -/
inductive EdgeRel where
  | SUPPORTS
  | OVERLAPS
  | ANALOGOUS
  | CONTRASTS
  | FRAMES
  | PART_OF
  | CAUSAL
deriving DecidableEq, Repr

/-- Dict lookup on an insertion-ordered association list (Python `d[k]` /
`d.get(k)`). -/
def lookupA {β : Type} (l : List (String × β)) (k : String) : Option β :=
  match l with
  | [] => none
  | (k', v) :: t => if k' = k then some v else lookupA t k

/-- Dict write `d[k] = v`: replace the first binding of `k` in place, or
append a fresh binding at the end (Python dict insertion-order semantics). -/
def setA {β : Type} (l : List (String × β)) (k : String) (v : β) :
    List (String × β) :=
  match l with
  | [] => [(k, v)]
  | (k', v') :: t => if k' = k then (k', v) :: t else (k', v') :: setA t k v

/-- A graph node (semantic_types.GraphNode). -/
structure GraphNode where
  node_id : String
  type : NodeType
  weight : ℚ
  corpus_support : List (String × ℚ)
  provenance : List String
  payload_ref : Option String
deriving DecidableEq, Repr

/-- A directed adjacency record (semantic_types.GraphEdge). -/
structure GraphEdge where
  src : String
  dst : String
  rel : EdgeRel
  weight : ℚ
  evidence_corpora : List String
deriving DecidableEq, Repr

/-- The node/edge store (graph.InteractionGraph). -/
structure InteractionGraph where
  nodes : List (String × GraphNode)
  adj : List (String × List GraphEdge)
  entropy_by_corpus : List (String × ℚ)
deriving DecidableEq, Repr

def emptyGraph : InteractionGraph := ⟨[], [], []⟩

/-! ## weights.py -/

/-- weights.REL_STRENGTH. -/
def REL_STRENGTH (r : EdgeRel) : ℚ :=
  match r with
  | .SUPPORTS => 1.0
  | .OVERLAPS => 0.9
  | .ANALOGOUS => 0.7
  | .CONTRASTS => 0.7
  | .FRAMES => 0.6
  | .PART_OF => 0.6
  | .CAUSAL => 0.5

/-- weights.evidence_factor. -/
def evidence_factor (corpus_count : ℕ) : ℚ :=
  if corpus_count ≤ 1 then 1.0
  else if corpus_count = 2 then 1.2
  else if corpus_count = 3 then 1.35
  else 1.45

/-- weights.entropy_factor. -/
def entropy_factor (edge_rel : EdgeRel) (entropy_src entropy_dst : ℚ)
    (cross_corpus_confirmed : Bool) : ℚ :=
  let hot := (entropy_src + entropy_dst) / 2
  if edge_rel = EdgeRel.ANALOGOUS ∧ 0.7 ≤ hot ∧ cross_corpus_confirmed = false
  then 0.85 else 1.0

/-- weights.cap_momentum; every call site in the source uses the default
cap of 10.0, passed explicitly here. -/
def cap_momentum (m cap : ℚ) : ℚ := min m cap

/-! ## graph.py -/

/-- graph.InteractionGraph.ensure_node: insert a new node as-is; merge an
existing one by adding weights (the source applies no cap here — its comment
reads "cap elsewhere if needed"), summing per-corpus support, and appending
provenance. -/
def ensure_node (g : InteractionGraph) (node : GraphNode) : InteractionGraph :=
  match lookupA g.nodes node.node_id with
  | none =>
      { g with
        nodes := g.nodes ++ [(node.node_id, node)]
        adj := g.adj ++ [(node.node_id, [])] }
  | some existing =>
      let merged : GraphNode :=
        { existing with
          weight := existing.weight + node.weight
          corpus_support :=
            node.corpus_support.foldl
              (fun cs kv => setA cs kv.1 ((lookupA cs kv.1).getD 0 + kv.2))
              existing.corpus_support
          provenance := existing.provenance ++ node.provenance }
      { g with nodes := setA g.nodes node.node_id merged }

/-- Append an edge to the adjacency list stored under `k`. The source indexes
`self.adj[k]` directly, which raises `KeyError` for a key that was never
ensured; the builder ensures both endpoints before adding any edge, so that
case is unreachable there and is embedded as a no-op. -/
def appendAdj (adj : List (String × List GraphEdge)) (k : String)
    (e : GraphEdge) : List (String × List GraphEdge) :=
  match adj with
  | [] => []
  | (k', es) :: t =>
      if k' = k then (k', es ++ [e]) :: t else (k', es) :: appendAdj t k e

/-- graph.InteractionGraph.add_edge: store the forward record under the
source and an independently-built reverse record under the destination. -/
def add_edge (g : InteractionGraph) (e : GraphEdge) : InteractionGraph :=
  { g with
    adj :=
      appendAdj (appendAdj g.adj e.src e) e.dst
        ⟨e.dst, e.src, e.rel, e.weight, e.evidence_corpora⟩ }

/-- graph.InteractionGraph.neighbors (`self.adj.get(node_id, [])`). -/
def neighbors (g : InteractionGraph) (node_id : String) : List GraphEdge :=
  (lookupA g.adj node_id).getD []

/-- graph.InteractionGraph.node_type: `None` (here `none`) for unknown ids. -/
def node_type (g : InteractionGraph) (node_id : String) : Option NodeType :=
  (lookupA g.nodes node_id).map GraphNode.type

/-- graph.InteractionGraph.degree_strong. -/
def degree_strong (g : InteractionGraph) (node_id : String) (edge_min : ℚ)
    (allowed_rels : List EdgeRel) (allowed_neighbor_types : List NodeType) :
    ℕ :=
  ((neighbors g node_id).filter fun e =>
    decide (edge_min ≤ e.weight) && decide (e.rel ∈ allowed_rels) &&
      (match node_type g e.dst with
       | some nt => decide (nt ∈ allowed_neighbor_types)
       | none => false)).length

/-! ## Essence input (semantic_types) — only the fields the builder reads. -/

/-- semantic_types.WeightedTerm (count/dispersion are never read by the
engine and are omitted). -/
structure WeightedTerm where
  term : String
  weight : ℚ
deriving DecidableEq, Repr

/-- semantic_types.ConceptNode (label/aliases are never read by the engine
and are omitted). -/
structure ConceptNode where
  concept_id : String
  weight : ℚ
deriving DecidableEq, Repr

/-- semantic_types.SemanticEssence (motifs/tensions/tone are never read by
the builder and are omitted). -/
structure SemanticEssence where
  corpus_id : String
  key_terms : List WeightedTerm
  key_concepts : List ConceptNode
  entropy : ℚ
  provenance : List String
deriving DecidableEq, Repr

/-! ## builder.py -/

/-- One TERM node of builder.add_essence_to_graph. -/
def termNodeOf (essence : SemanticEssence) (wt : WeightedTerm) : GraphNode :=
  { node_id := "T:" ++ wt.term
    type := .TERM
    weight := cap_momentum wt.weight 10
    corpus_support := [(essence.corpus_id, wt.weight)]
    provenance := essence.provenance
    payload_ref := some (essence.corpus_id ++ ":term:" ++ wt.term) }

/-- One CONCEPT node of builder.add_essence_to_graph, built from the
aggregated per-id weight map. -/
def conceptNodeOf (essence : SemanticEssence)
    (concept_weight : List (String × ℚ)) (c : ConceptNode) : GraphNode :=
  { node_id := "C:" ++ c.concept_id
    type := .CONCEPT
    weight := cap_momentum ((lookupA concept_weight c.concept_id).getD c.weight) 10
    corpus_support :=
      [(essence.corpus_id, (lookupA concept_weight c.concept_id).getD c.weight)]
    provenance := essence.provenance
    payload_ref := some (essence.corpus_id ++ ":concept:" ++ c.concept_id) }

/-- The SUPPORTS edge weight of builder.add_essence_to_graph. -/
def skeletonEdgeWeight (essence : SemanticEssence) (wt : WeightedTerm)
    (c : ConceptNode) : ℚ :=
  let rs := REL_STRENGTH .SUPPORTS
  let em := cap_momentum (min wt.weight c.weight) 10
  let ef := evidence_factor 1
  let entf := entropy_factor .SUPPORTS essence.entropy essence.entropy false
  rs * (em / 10) * ef * entf

/-- builder.add_essence_to_graph. Note that the CONCEPT loop of the source
iterates over every entry of `key_concepts` — one `ensure_node` call per
occurrence of a concept id, each carrying the aggregated weight — not one
call per distinct id. -/
def add_essence_to_graph (g : InteractionGraph) (essence : SemanticEssence)
    (edge_min : ℚ) : InteractionGraph :=
  let g1 :=
    { g with
      entropy_by_corpus :=
        setA g.entropy_by_corpus essence.corpus_id essence.entropy }
  let g2 := essence.key_terms.foldl
    (fun g wt => ensure_node g (termNodeOf essence wt)) g1
  let concept_weight := essence.key_concepts.foldl
    (fun cw c => setA cw c.concept_id ((lookupA cw c.concept_id).getD 0 + c.weight))
    []
  let g3 := essence.key_concepts.foldl
    (fun g c => ensure_node g (conceptNodeOf essence concept_weight c)) g2
  (essence.key_terms.take 10).foldl
    (fun g wt =>
      (essence.key_concepts.take 6).foldl
        (fun g c =>
          let w := skeletonEdgeWeight essence wt c
          if edge_min * 0.6 ≤ w then
            add_edge g
              ⟨"T:" ++ wt.term, "C:" ++ c.concept_id, .SUPPORTS, w,
                [essence.corpus_id]⟩
          else g)
        g)
    g3

/-- builder.add_cross_corpus_overlap_edges: a documented no-op. -/
def add_cross_corpus_overlap_edges (g : InteractionGraph) (_edge_min : ℚ) :
    InteractionGraph := g

/-! ## Parameter records (semantic_types) — only the fields the engine reads.
The two hop-distance parameters and core_size are Python ints used as
non-negative counts; they are embedded as ℕ. -/

structure SeedParams where
  seed_min : ℚ
  seed_separation_distance : ℕ
deriving DecidableEq, Repr

structure ClusterParams where
  edge_min : ℚ
  merge_overlap : ℚ
  core_size : ℕ
  max_growth_depth : ℕ
deriving DecidableEq, Repr

structure SpineParams where
  max_spines_shown : ℕ
deriving DecidableEq, Repr

structure MCurrent where
  strength : ℚ
deriving DecidableEq, Repr

/-- semantic_types.Cluster with its dataclass defaults. -/
structure Cluster where
  cluster_id : String
  seed_node : String
  seed_score : ℚ
  members : List String
  core : List String
  support_profile : List (String × ℚ)
  entropy_min : ℚ
  entropy_mean : ℚ
  entropy_max : ℚ
  tension_nodes : List String
  bridge_nodes : List String
deriving DecidableEq, Repr

/-- `Cluster(cluster_id=…, seed_node=…, seed_score=…, members=…)` with the
remaining fields at their dataclass defaults. -/
def mkClusterRaw (cluster_id seed_node : String) (seed_score : ℚ)
    (members : List String) : Cluster :=
  ⟨cluster_id, seed_node, seed_score, members, [], [], 1, 0.5, 0, [], []⟩

/-! ## cluster.py -/

def SEED_ALLOWED_TYPES : List NodeType := [.CONCEPT, .MOTIF, .TENSION]

def DEGREE_ALLOWED_RELS : List EdgeRel :=
  [.SUPPORTS, .ANALOGOUS, .CONTRASTS, .FRAMES, .PART_OF, .OVERLAPS]

def DEGREE_ALLOWED_NEIGHBORS : List NodeType := [.CONCEPT, .MOTIF, .TENSION]

/-- cluster.seed_score. The source indexes `g.nodes[node_id]` directly and
raises `KeyError` for an unknown id; `none` models that. -/
def seed_score (g : InteractionGraph) (node_id : String)
    (params : ClusterParams) : Option ℚ :=
  (lookupA g.nodes node_id).map fun n =>
    let support_count := (n.corpus_support.filter fun kv => decide (0 < kv.2)).length
    let A : ℚ :=
      if support_count = 2 then 2
      else if support_count = 3 then 3
      else if 4 ≤ support_count then 4
      else 0
    let deg := degree_strong g node_id params.edge_min DEGREE_ALLOWED_RELS
      DEGREE_ALLOWED_NEIGHBORS
    let B : ℚ := min 3 ((deg : ℚ) / 3)
    let C : ℚ := if n.type = NodeType.TENSION then 1 else 0
    let ent_sources := n.corpus_support.filterMap
      (fun kv => lookupA g.entropy_by_corpus kv.1)
    let D : ℚ :=
      if (ent_sources.any fun e => decide (e < 0.45)) &&
          (ent_sources.any fun e => decide (0.70 ≤ e))
      then 1 else 0
    A + B + C + D

/-- Whether an edge is followed by the seed-separation BFS: weight at least
`edge_min` and destination of a seed-eligible type (an unknown destination
has `node_type = none` and is never followed). -/
def seedStepOk (g : InteractionGraph) (edge_min : ℚ) (e : GraphEdge) : Bool :=
  decide (edge_min ≤ e.weight) &&
    (match node_type g e.dst with
     | some nt => decide (nt ∈ SEED_ALLOWED_TYPES)
     | none => false)

/-- Whether an edge is followed by the cluster-growth BFS: weight at least
`edge_min` and destination of type CONCEPT, MOTIF, TENSION or TERM. -/
def growStepOk (g : InteractionGraph) (edge_min : ℚ) (e : GraphEdge) : Bool :=
  decide (edge_min ≤ e.weight) &&
    (match node_type g e.dst with
     | some nt =>
         decide (nt ∈ [NodeType.CONCEPT, .MOTIF, .TENSION, .TERM])
     | none => false)

/-- The shared inner loop of both BFS traversals (`for e in g.neighbors(cur)`):
walk the edge list, and for each edge passing the filter whose destination is
unseen, mark it seen and queue it. Returns the updated seen set and the list
of newly discovered ids in discovery order. -/
def bfsVisit (ok : GraphEdge → Bool) (seen acc : List String)
    (es : List GraphEdge) : List String × List String :=
  match es with
  | [] => (seen, acc)
  | e :: rest =>
      if ok e = true ∧ e.dst ∉ seen then
        bfsVisit ok (seen ++ [e.dst]) (acc ++ [e.dst]) rest
      else bfsVisit ok seen acc rest

/-- The queue loop of cluster._too_close_to_existing_seed, with fuel.
Exhausted fuel returns `false`; the wrapper passes provably sufficient
fuel. -/
def tooCloseLoop (g : InteractionGraph) (edge_min : ℚ) (targets : List String)
    (nid : String) (dist : ℕ) :
    ℕ → List String → List (String × ℕ) → Bool
  | _, _, [] => false
  | 0, _, _ => false
  | fuel + 1, seen, (cur, d) :: rest =>
      if dist < d then tooCloseLoop g edge_min targets nid dist fuel seen rest
      else if cur ∈ targets ∧ cur ≠ nid then true
      else if d = dist then tooCloseLoop g edge_min targets nid dist fuel seen rest
      else
        let step := bfsVisit (seedStepOk g edge_min) seen [] (neighbors g cur)
        tooCloseLoop g edge_min targets nid dist fuel step.1
          (rest ++ step.2.map fun x => (x, d + 1))

/-- cluster._too_close_to_existing_seed. -/
def too_close_to_existing_seed (g : InteractionGraph) (nid : String)
    (seeds : List (String × ℚ)) (dist : ℕ) (edge_min : ℚ) : Bool :=
  if seeds = [] then false
  else
    tooCloseLoop g edge_min (seeds.map Prod.fst) nid dist
      (g.nodes.length + 1) [nid] [(nid, 0)]

/-- One acceptance step of the select_seeds walk over the sorted candidate
list: skip a candidate below the minimum score or too close to an accepted
seed, accept it otherwise. -/
def selectStep (g : InteractionGraph) (seed_params : SeedParams)
    (cluster_params : ClusterParams) (seeds : List (String × ℚ))
    (x : String × ℚ) : List (String × ℚ) :=
  if x.2 < seed_params.seed_min then seeds
  else if too_close_to_existing_seed g x.1 seeds
      seed_params.seed_separation_distance cluster_params.edge_min then
    seeds
  else seeds ++ [x]

/-- cluster.select_seeds. The candidates are the node-store keys whose node
type is seed-eligible; each candidate is a key of the store, so the
`seed_score` lookup always succeeds and the `filterMap` drops nothing (the
source indexes the store directly at exactly these ids). -/
def select_seeds (g : InteractionGraph) (seed_params : SeedParams)
    (cluster_params : ClusterParams) : List (String × ℚ) :=
  let candidates :=
    (g.nodes.filter fun p => decide (p.2.type ∈ SEED_ALLOWED_TYPES)).map Prod.fst
  let scored := candidates.filterMap
    (fun nid => (seed_score g nid cluster_params).map fun sc => (nid, sc))
  let sorted := scored.mergeSort fun a b => decide (b.2 ≤ a.2)
  sorted.foldl (selectStep g seed_params cluster_params) []

/-- Code-point lexicographic comparison on char lists (Python string
comparison). -/
def charListLe : List Char → List Char → Bool
  | [], _ => true
  | _ :: _, [] => false
  | a :: as, b :: bs =>
      if a.toNat < b.toNat then true
      else if b.toNat < a.toNat then false
      else charListLe as bs

/-- Python string `<=` (code-point lexicographic), used by `sorted` on
member-id lists. -/
def strLe (a b : String) : Bool := charListLe a.data b.data

/-- The queue loop of cluster.grow_cluster_from_seed, with fuel. Exhausted
fuel returns the members found so far; the wrapper passes provably
sufficient fuel. -/
def growLoop (g : InteractionGraph) (edge_min : ℚ) (max_depth : ℕ) :
    ℕ → List String → List (String × ℕ) → List String
  | _, members, [] => members
  | 0, members, _ => members
  | fuel + 1, members, (cur, depth) :: rest =>
      if max_depth ≤ depth then
        growLoop g edge_min max_depth fuel members rest
      else
        let step := bfsVisit (growStepOk g edge_min) members [] (neighbors g cur)
        growLoop g edge_min max_depth fuel step.1
          (rest ++ step.2.map fun x => (x, depth + 1))

/-- The member set grown by the BFS of cluster.grow_cluster_from_seed
(before sorting and profiling). -/
def grow_members (g : InteractionGraph) (edge_min : ℚ) (max_depth : ℕ)
    (seed : String) : List String :=
  growLoop g edge_min max_depth (g.nodes.length + 1) [seed] [(seed, 0)]

/-- Maximum of a list of rationals with a default for the empty list
(Python `max(xs)` guarded by a truthiness check). -/
def listMaxD (l : List ℚ) (d : ℚ) : ℚ :=
  match l with
  | [] => d
  | x :: xs => xs.foldl max x

/-- Minimum of a list of rationals with a default for the empty list. -/
def listMinD (l : List ℚ) (d : ℚ) : ℚ :=
  match l with
  | [] => d
  | x :: xs => xs.foldl min x

/-- Look up every id of a list in the node store, pairing it with its
record; `none` models the `KeyError` the source raises at the first unknown
id (mirroring the Python loops that index `g.nodes[nid]` per element). -/
def lookupAll (g : InteractionGraph) : List String →
    Option (List (String × GraphNode))
  | [] => some []
  | nid :: t =>
      match lookupA g.nodes nid with
      | none => none
      | some n => (lookupAll g t).map fun rest => (nid, n) :: rest

/-- A fold over `Option` mirroring a Python loop whose body can raise. -/
def foldOption {α β : Type} (f : β → α → Option β) : β → List α → Option β
  | b, [] => some b
  | b, a :: t =>
      match f b a with
      | none => none
      | some b2 => foldOption f b2 t

/-- cluster._compute_cluster_profiles. The source indexes `g.nodes[nid]`
directly for every member, raising `KeyError` for a member id absent from
the node store; `none` models that. Note the core ranking of the source
sorts the CONCEPT/MOTIF/TENSION members by raw node weight alone. -/
def computeClusterProfiles (g : InteractionGraph) (c : Cluster)
    (params : ClusterParams) : Option Cluster :=
  (lookupAll g c.members).map
    fun pairs =>
      let support := pairs.foldl
        (fun s p =>
          p.2.corpus_support.foldl
            (fun s kv => setA s kv.1 ((lookupA s kv.1).getD 0 + kv.2)) s)
        []
      let entropies := pairs.foldl
        (fun es p =>
          es ++ p.2.corpus_support.filterMap
            (fun kv => lookupA g.entropy_by_corpus kv.1))
        []
      let tensions :=
        (pairs.filter fun p => decide (p.2.type = NodeType.TENSION)).map Prod.fst
      let core_candidates :=
        pairs.filter fun p => decide (p.2.type ∈ [NodeType.CONCEPT, .MOTIF, .TENSION])
      let core_sorted :=
        core_candidates.mergeSort fun a b => decide (b.2.weight ≤ a.2.weight)
      let c1 :=
        { c with
          support_profile := support
          tension_nodes := tensions
          core := (core_sorted.take params.core_size).map Prod.fst }
      match entropies with
      | [] => c1
      | e :: es =>
          { c1 with
            entropy_min := listMinD (e :: es) 1
            entropy_max := listMaxD (e :: es) 0
            entropy_mean := (e :: es).sum / ((e :: es).length : ℚ) }

/-- cluster.grow_cluster_from_seed: BFS members, sorted lexicographically
(Python `sorted` on strings), then profiled. -/
def grow_cluster_from_seed (g : InteractionGraph) (seed : String)
    (seed_sc : ℚ) (cluster_id : String) (params : ClusterParams) :
    Option Cluster :=
  let members :=
    (grow_members g params.edge_min params.max_growth_depth seed).mergeSort
      fun a b => strLe a b
  computeClusterProfiles g (mkClusterRaw cluster_id seed seed_sc members) params

/-- First-seen-order deduplication (spines._dedupe, and Python `set`
cardinalities). -/
def dedupeGo (seen : List String) : List String → List String
  | [] => []
  | x :: xs => if x ∈ seen then dedupeGo seen xs else x :: dedupeGo (x :: seen) xs

def dedupe (xs : List String) : List String := dedupeGo [] xs

/-- The `top_share` helper of cluster.should_merge: the largest single-corpus
support share of the total support (`or 1.0` guards a zero total, an empty
profile contributes a zero maximum). -/
def top_share (c : Cluster) : ℚ :=
  let total0 := (c.support_profile.map Prod.snd).sum
  let total := if total0 = 0 then 1 else total0
  let top := listMaxD (c.support_profile.map Prod.snd) 0
  top / total

/-- cluster.should_merge. Core overlap is computed on Python sets; the
deduplicated core lists model those sets. -/
def should_merge (g : InteractionGraph) (a b : Cluster)
    (params : ClusterParams) : Bool :=
  let core_a := dedupe a.core
  let core_b := dedupe b.core
  if core_a = [] ∨ core_b = [] then false
  else
    let overlap :=
      ((core_a.filter fun x => decide (x ∈ core_b)).length : ℚ) /
        (min core_a.length core_b.length : ℚ)
    if overlap < params.merge_overlap then false
    else if (0.35 : ℚ) < |top_share a - top_share b| then false
    else true

/-- The merged cluster built by cluster.merge_clusters for a mergeable pair:
member union (Python `sorted(set(…)|set(…))`), first seed, max seed score,
profile recomputed. -/
def computeMerged (g : InteractionGraph) (params : ClusterParams)
    (ci cj : Cluster) : Option Cluster :=
  let new_members :=
    (dedupe (ci.members ++ cj.members)).mergeSort fun a b => strLe a b
  computeClusterProfiles g
    (mkClusterRaw (ci.cluster_id ++ "+" ++ cj.cluster_id) ci.seed_node
      (max ci.seed_score cj.seed_score) new_members)
    params

/-- Find the first cluster of the list mergeable with `c` and return it with
the remaining clusters in order (the inner `for j` loop of
cluster.merge_clusters with its `used` bookkeeping). -/
def extractFirstMergeable (g : InteractionGraph) (params : ClusterParams)
    (c : Cluster) : List Cluster → Option (Cluster × List Cluster)
  | [] => none
  | d :: t =>
      if should_merge g c d params then some (d, t)
      else (extractFirstMergeable g params c t).map fun x => (x.1, d :: x.2)

/-- One full pass of cluster.merge_clusters over the cluster list, with fuel
(one unit per processed cluster; the wrapper passes provably sufficient
fuel, and `none` additionally models the `KeyError` the profile
recomputation of the source can raise). Returns the pass output and whether
any merge happened. -/
def mergePassF (g : InteractionGraph) (params : ClusterParams) :
    ℕ → List Cluster → Option (List Cluster × Bool)
  | _, [] => some ([], false)
  | 0, _ => none
  | fuel + 1, c :: rest =>
      match extractFirstMergeable g params c rest with
      | some (cj, rest') =>
          (computeMerged g params c cj).bind fun merged =>
            (mergePassF g params fuel rest').map fun pr =>
              (merged :: pr.1, true)
      | none =>
          (mergePassF g params fuel rest).map fun pr => (c :: pr.1, pr.2)

def mergePass (g : InteractionGraph) (params : ClusterParams)
    (l : List Cluster) : Option (List Cluster × Bool) :=
  mergePassF g params (l.length + 1) l

/-- The `while merged` fixed-point loop of cluster.merge_clusters, with fuel
(one unit per pass; the wrapper passes provably sufficient fuel). -/
def mergeLoop (g : InteractionGraph) (params : ClusterParams) :
    ℕ → List Cluster → Option (List Cluster)
  | 0, _ => none
  | fuel + 1, l =>
      match mergePass g params l with
      | none => none
      | some (out, true) => mergeLoop g params fuel out
      | some (out, false) => some out

/-- cluster.merge_clusters. -/
def merge_clusters (g : InteractionGraph) (clusters : List Cluster)
    (params : ClusterParams) : Option (List Cluster) :=
  mergeLoop g params (clusters.length + 1) clusters

/-! ## spines.py -/

def GLUE_TERMS : List String :=
  ["and", "or", "the", "a", "an", "of", "to", "in", "is", "was", "were",
   "be", "been", "being", "that", "this", "these", "those",
   "his", "her", "their", "its", "with", "for", "on", "by", "as", "at",
   "from", "not", "but", "which", "who", "whom", "what"]

def GLUE_PENALTY : ℚ := 0.25

/-- Python `str.replace` on character lists: replace every non-overlapping
occurrence of the (non-empty) pattern left to right, with fuel one per
character. -/
def replChars (pat rep : List Char) : ℕ → List Char → List Char
  | _, [] => []
  | 0, s => s
  | fuel + 1, c :: rest =>
      if pat.isPrefixOf (c :: rest) then
        rep ++ replChars pat rep fuel ((c :: rest).drop pat.length)
      else c :: replChars pat rep fuel rest

/-- Python `s.replace(pat, rep)` for a non-empty pattern (both patterns the
source uses are non-empty). -/
def pyReplace (s pat rep : String) : String :=
  String.mk (replChars pat.data rep.data s.data.length s.data)

/-- Python `s.lower()` (all labels involved are ASCII). -/
def pyLower (s : String) : String := String.mk (s.data.map Char.toLower)

/-- spines._label. -/
def spineLabel (nid : String) : String :=
  pyLower (pyReplace (pyReplace nid ("C:concept::") ("")) ("T:") (""))

/-- The glue-penalized weight of a node (spines._adjusted_weight), taken on
the already-looked-up node record; the source indexes `g.nodes[nid]`
directly, and every call below materializes that lookup first. -/
def adjustedWeight (nid : String) (n : GraphNode) : ℚ :=
  if spineLabel nid ∈ GLUE_TERMS then n.weight * GLUE_PENALTY else n.weight

/-- semantic_types-level Spine record (spines.Spine). -/
structure Spine where
  spine_type : String
  nodes : List String
  clusters : List String
  score : ℚ
  score_breakdown : List (String × ℚ)
deriving DecidableEq, Repr

/-- spines._question_region: the TERM nodes matching the question tokens
plus every CONCEPT directly linked to one of them; a set in the source,
embedded as a deduplicated list. -/
def question_region (g : InteractionGraph) (question_terms : List String) :
    List String :=
  let q1 := dedupe
    ((question_terms.map fun t => "T:" ++ t).filter fun tid =>
      (lookupA g.nodes tid).isSome)
  dedupe
    (q1 ++ q1.foldl
      (fun acc nid =>
        acc ++ (neighbors g nid).filterMap fun e =>
          if node_type g e.dst = some NodeType.CONCEPT then some e.dst
          else none)
      [])

/-- spines._cluster_foreground_bonus. -/
def cluster_foreground_bonus (c : Cluster) (m : MCurrent) : ℚ :=
  let total0 := (c.support_profile.map Prod.snd).sum
  let total := if total0 = 0 then 1 else total0
  let top := listMaxD (c.support_profile.map Prod.snd) 0
  let dominance := top / total
  let diversity := 1 - dominance
  m.strength * (0.6 * diversity + 0.4 * (1 - dominance))

/-- Cardinality of `set(xs) ∩ qreg` for a list `xs` and a deduplicated
region list. -/
def interCount (xs qreg : List String) : ℕ :=
  ((dedupe xs).filter fun x => decide (x ∈ qreg)).length

/-- The per-cluster accumulator state of spines._spine_invariant. -/
structure InvState where
  nodes : List String
  clusters_used : List String
  qfit : ℚ
  inv_score : ℚ
  mcur : ℚ

/-- One cluster step of spines._spine_invariant. -/
def invStep (g : InteractionGraph) (qreg : List String) (m : MCurrent)
    (st : InvState) (c : Cluster) : Option InvState :=
  (lookupAll g c.core).map fun pairs =>
    let core := pairs.filter fun p =>
      decide (p.2.type ∈ [NodeType.CONCEPT, .MOTIF])
    let sorted := core.mergeSort fun a b =>
      decide (b.2.corpus_support.length < a.2.corpus_support.length ∨
        (b.2.corpus_support.length = a.2.corpus_support.length ∧
          adjustedWeight b.1 b.2 ≤ adjustedWeight a.1 a.2))
    let pick := sorted.take 6
    { nodes := st.nodes ++ pick.map Prod.fst
      clusters_used := st.clusters_used ++ [c.cluster_id]
      qfit := st.qfit + (interCount (pick.map Prod.fst) qreg : ℚ) * 0.5
      inv_score := st.inv_score +
        (pick.foldl
          (fun s p =>
            s + min 4 (p.2.corpus_support.length : ℚ) * adjustedWeight p.1 p.2)
          0) * 0.6
      mcur := st.mcur + cluster_foreground_bonus c m }

/-- spines._spine_invariant. -/
def spine_invariant (g : InteractionGraph) (cluster_hits : List Cluster)
    (qreg : List String) (m : MCurrent) : Option Spine :=
  (foldOption (invStep g qreg m) ⟨[], [], 0, 0, 0⟩ (cluster_hits.take 2)).map
    fun st =>
      { spine_type := "invariant"
        nodes := dedupe st.nodes
        clusters := st.clusters_used
        score := 1.4 * st.qfit + 1.2 * st.inv_score + st.mcur
        score_breakdown :=
          [("QFit", st.qfit), ("Invariant", st.inv_score),
           ("MCurrent", st.mcur), ("ClosureRisk", 0)] }

/-- The per-cluster accumulator state of spines._spine_tension. -/
structure TenState where
  nodes : List String
  clusters_used : List String
  qfit : ℚ
  ten_score : ℚ
  mcur : ℚ

/-- One cluster step of spines._spine_tension. -/
def tenStep (g : InteractionGraph) (qreg : List String) (m : MCurrent)
    (st : TenState) (c : Cluster) : Option TenState :=
  (lookupAll g (c.tension_nodes.filter fun nid => decide (nid ∈ c.members))).map
    fun pairs =>
      let sorted := pairs.mergeSort fun a b =>
        decide (adjustedWeight b.1 b.2 ≤ adjustedWeight a.1 a.2)
      let pick := sorted.take 4
      let withNbrs :=
        pick.foldl
          (fun ns p =>
            ns ++ (neighbors g p.1).filterMap fun e =>
              if node_type g e.dst = some NodeType.CONCEPT ∧ 0.55 ≤ e.weight
              then some e.dst else none)
          (st.nodes ++ pick.map Prod.fst)
      { nodes := withNbrs
        clusters_used := st.clusters_used ++ [c.cluster_id]
        qfit := st.qfit + (interCount withNbrs qreg : ℚ) * 0.35
        ten_score := st.ten_score + (pick.length : ℚ)
        mcur := st.mcur + cluster_foreground_bonus c m }

/-- spines._spine_tension. -/
def spine_tension (g : InteractionGraph) (cluster_hits : List Cluster)
    (qreg : List String) (m : MCurrent) : Option Spine :=
  (foldOption (tenStep g qreg m) ⟨[], [], 0, 0, 0⟩ (cluster_hits.take 2)).map
    fun st =>
      { spine_type := "tension"
        nodes := dedupe st.nodes
        clusters := st.clusters_used
        score := 1.1 * st.qfit + 1.6 * st.ten_score + st.mcur
        score_breakdown :=
          [("QFit", st.qfit), ("Tension", st.ten_score),
           ("MCurrent", st.mcur), ("ClosureRisk", 0)] }

/-- The `dominance` helper of spines._spine_delta. -/
def deltaDominance (c : Cluster) : ℚ :=
  let total0 := (c.support_profile.map Prod.snd).sum
  let total := if total0 = 0 then 1 else total0
  let top := listMaxD (c.support_profile.map Prod.snd) 0
  top / total

/-- Python `max(…, key=…, default=primary)`: the earliest cluster of the
list with the strictly largest key, or `primary` for an empty list. -/
def deltaTarget (primary : Cluster) (others : List Cluster) : Cluster :=
  match others with
  | [] => primary
  | o :: os =>
      os.foldl
        (fun best c =>
          if |deltaDominance best - deltaDominance primary| <
              |deltaDominance c - deltaDominance primary| then c else best)
        o

/-- One cluster step of spines._spine_delta (runs over
`[primary, target]`). -/
def deltaStep (g : InteractionGraph) (qreg : List String) (m : MCurrent)
    (st : InvState) (c : Cluster) : Option InvState :=
  (lookupAll g c.core).map fun pairs =>
    let core := pairs.filter fun p =>
      decide (p.2.type ∈ [NodeType.CONCEPT, .MOTIF, .TENSION])
    let sorted := core.mergeSort fun a b =>
      decide (adjustedWeight b.1 b.2 ≤ adjustedWeight a.1 a.2)
    { nodes := st.nodes ++ (sorted.take 6).map Prod.fst
      clusters_used := st.clusters_used ++ [c.cluster_id]
      qfit := st.qfit + (interCount (core.map Prod.fst) qreg : ℚ) * 0.3
      inv_score := st.inv_score
      mcur := st.mcur + cluster_foreground_bonus c m }

/-- spines._spine_delta. -/
def spine_delta (g : InteractionGraph) (all_clusters : List Cluster)
    (cluster_hits : List Cluster) (qreg : List String) (m : MCurrent) :
    Option Spine :=
  match all_clusters with
  | [] => some ⟨"delta", [], [], 0, []⟩
  | a0 :: rest0 =>
      let primary := match cluster_hits with
        | [] => a0
        | h :: _ => h
      let others := (a0 :: rest0).filter fun c =>
        decide (¬ c.cluster_id = primary.cluster_id)
      let target := deltaTarget primary others
      let best := |deltaDominance target - deltaDominance primary|
      (foldOption (deltaStep g qreg m) ⟨[], [], 0, 0, 0⟩ [primary, target]).map
        fun st =>
          { spine_type := "delta"
            nodes := dedupe st.nodes
            clusters := st.clusters_used
            score := 1.0 * st.qfit + 1.3 * (best * 3.0) + st.mcur
            score_breakdown :=
              [("QFit", st.qfit), ("Delta", best * 3.0),
               ("MCurrent", st.mcur), ("ClosureRisk", 0)] }

/-- spines.build_spines. `none` models the `KeyError` the source raises when
a cluster core or tension member is absent from the node store. -/
def build_spines (g : InteractionGraph) (clusters : List Cluster)
    (question_terms : List String) (m : MCurrent) (_params : SpineParams) :
    Option (List Spine) :=
  let qreg := question_region g question_terms
  let hits0 := clusters.filter fun c =>
    decide ((c.members.filter fun x => decide (x ∈ qreg)) ≠ [])
  let cluster_hits :=
    if hits0 = [] then
      (clusters.mergeSort fun a b =>
        decide ((b.support_profile.map Prod.snd).sum ≤
          (a.support_profile.map Prod.snd).sum)).take 3
    else hits0
  (spine_invariant g cluster_hits qreg m).bind fun inv =>
    (spine_tension g cluster_hits qreg m).bind fun ten =>
      (spine_delta g clusters cluster_hits qreg m).map fun delt =>
        [inv, ten, delt].mergeSort fun a b => decide (b.score ≤ a.score)

/-- spines.choose_spines_for_output. -/
def choose_spines_for_output (spines : List Spine) (params : SpineParams) :
    List Spine :=
  match spines with
  | [] => []
  | primary :: rest =>
      match rest.find? fun s => decide (¬ s.spine_type = primary.spine_type) with
      | some secondary =>
          if 2 ≤ params.max_spines_shown then [primary, secondary] else [primary]
      | none => [primary]

/-! ## Bounded reachability along a step relation.

Both BFS traversals of cluster.py follow an edge exactly when a Boolean
filter accepts it; `stepRel` is the induced one-hop relation, `ReachN` the
"path of length exactly d" predicate and `ReachLe` the "within d hops"
predicate the spec's traversal claims speak about. -/

/-- One hop: some stored adjacency record from `u`, accepted by the filter,
ends at `w`. -/
def stepRel (g : InteractionGraph) (ok : GraphEdge → Bool) (u w : String) :
    Prop :=
  ∃ e ∈ neighbors g u, ok e = true ∧ e.dst = w

/-- A path of length exactly `d` from `a` along `S`. -/
inductive ReachN (S : String → String → Prop) (a : String) :
    String → ℕ → Prop where
  | base : ReachN S a a 0
  | step {u d w} : ReachN S a u d → S u w → ReachN S a w (d + 1)

/-- Reachable from `a` within at most `D` hops along `S`. -/
def ReachLe (S : String → String → Prop) (a v : String) (D : ℕ) : Prop :=
  ∃ d, d ≤ D ∧ ReachN S a v d

/-- Successor set. -/
def NextSet (S : String → String → Prop) (X : Set String) : Set String :=
  {w | ∃ u ∈ X, S u w}

/-- The set of nodes within `d` hops of `a`. -/
def RSet (S : String → String → Prop) (a : String) : ℕ → Set String
  | 0 => {a}
  | d + 1 => RSet S a d ∪ NextSet S (RSet S a d)

/-- The `d`-th BFS level: reachable within `d` hops but not fewer. -/
def levelSet (S : String → String → Prop) (a : String) : ℕ → Set String
  | 0 => {a}
  | d + 1 => RSet S a (d + 1) \ RSet S a d

theorem RSet_subset_succ {S : String → String → Prop} {a : String} (d : ℕ) :
    RSet S a d ⊆ RSet S a (d + 1) := by
  intro x hx
  exact Or.inl hx

theorem RSet_mono {S : String → String → Prop} {a : String} {d d' : ℕ}
    (h : d ≤ d') : RSet S a d ⊆ RSet S a d' := by
  induction h with
  | refl => exact fun x hx => hx
  | step _ ih => exact fun x hx => RSet_subset_succ _ (ih hx)

theorem reachN_mem_RSet {S : String → String → Prop} {a v : String} {d : ℕ}
    (h : ReachN S a v d) : v ∈ RSet S a d := by
  induction h with
  | base => rfl
  | step _ hs ih => exact Or.inr ⟨_, ih, hs⟩

theorem RSet_reachLe {S : String → String → Prop} {a : String} {D : ℕ} :
    ∀ {v : String}, v ∈ RSet S a D → ReachLe S a v D := by
  induction D with
  | zero => intro v hv; cases hv; exact ⟨0, le_refl 0, ReachN.base⟩
  | succ d ih =>
      intro v hv
      cases hv with
      | inl h =>
          obtain ⟨k, hk, hp⟩ := ih h
          exact ⟨k, le_trans hk (Nat.le_succ d), hp⟩
      | inr h =>
          obtain ⟨u, hu, hs⟩ := h
          obtain ⟨k, hk, hp⟩ := ih hu
          exact ⟨k + 1, Nat.succ_le_succ hk, ReachN.step hp hs⟩

theorem reachLe_iff_mem_RSet {S : String → String → Prop} {a v : String}
    {D : ℕ} : ReachLe S a v D ↔ v ∈ RSet S a D := by
  constructor
  · rintro ⟨d, hd, hp⟩
    exact RSet_mono hd (reachN_mem_RSet hp)
  · exact RSet_reachLe

/-- The next ball grows exactly by the successors of the current outermost
level. -/
theorem RSet_succ_frontier {S : String → String → Prop} {a : String}
    (d : ℕ) :
    RSet S a (d + 1) =
      RSet S a d ∪ (NextSet S (levelSet S a d) \ RSet S a d) := by
  ext x
  constructor
  · intro hx
    by_cases hxd : x ∈ RSet S a d
    · exact Or.inl hxd
    · cases hx with
      | inl h => exact absurd h hxd
      | inr h =>
          obtain ⟨u, hu, hs⟩ := h
          refine Or.inr ⟨⟨u, ?_, hs⟩, hxd⟩
          cases d with
          | zero => exact hu
          | succ d' =>
              by_cases hud : u ∈ RSet S a d'
              · exact absurd (Or.inr ⟨u, hud, hs⟩ : x ∈ RSet S a (d' + 1)) hxd
              · exact ⟨hu, hud⟩
  · intro hx
    cases hx with
    | inl h => exact Or.inl h
    | inr h =>
        obtain ⟨⟨u, hu, hs⟩, _⟩ := h
        cases d with
        | zero => exact Or.inr ⟨u, hu, hs⟩
        | succ d' => exact Or.inr ⟨u, hu.1, hs⟩

/-- Once a level is empty the ball is stalled for good. -/
theorem RSet_stall {S : String → String → Prop} {a : String} {d : ℕ}
    (h : RSet S a (d + 1) = RSet S a d) :
    ∀ {k : ℕ}, d ≤ k → RSet S a k = RSet S a d := by
  intro k hk
  induction hk with
  | refl => rfl
  | @step k' _ ih =>
      show RSet S a (k' + 1) = RSet S a d
      have hnext : NextSet S (RSet S a k') ⊆ RSet S a d := by
        rw [ih]
        intro x hx
        exact h ▸ (Or.inr hx : x ∈ RSet S a (d + 1))
      ext x
      constructor
      · intro hx
        cases hx with
        | inl hx' => exact ih ▸ hx'
        | inr hx' => exact hnext hx'
      · intro hx
        exact Or.inl (ih ▸ hx)

theorem reachN_mono {S T : String → String → Prop} {a v : String} {d : ℕ}
    (hST : ∀ u w, S u w → T u w) (h : ReachN S a v d) : ReachN T a v d := by
  induction h with
  | base => exact ReachN.base
  | step _ hs ih => exact ReachN.step ih (hST _ _ hs)

theorem reachLe_mono {S T : String → String → Prop} {a v : String} {D : ℕ}
    (hST : ∀ u w, S u w → T u w) (h : ReachLe S a v D) : ReachLe T a v D := by
  obtain ⟨d, hd, hp⟩ := h
  exact ⟨d, hd, reachN_mono hST hp⟩

theorem reachN_cons {S : String → String → Prop} {x y z : String} {d : ℕ}
    (hxy : S x y) (h : ReachN S y z d) : ReachN S x z (d + 1) := by
  induction h with
  | base => exact ReachN.step ReachN.base hxy
  | step _ hs ih => exact ReachN.step ih hs

/-- Path reversal for a symmetric step relation. -/
theorem reachN_symm {S : String → String → Prop}
    (hS : ∀ u w, S u w → S w u) {a v : String} {d : ℕ}
    (h : ReachN S a v d) : ReachN S v a d := by
  induction h with
  | base => exact ReachN.base
  | step _ hs ih => exact reachN_cons (hS _ _ hs) ih

theorem reachLe_symm {S : String → String → Prop}
    (hS : ∀ u w, S u w → S w u) {a v : String} {D : ℕ}
    (h : ReachLe S a v D) : ReachLe S v a D := by
  obtain ⟨d, hd, hp⟩ := h
  exact ⟨d, hd, reachN_symm hS hp⟩

/-! ## The worklist BFS of cluster.py computes bounded reachability.

Both `growLoop` and `tooCloseLoop` share the queue discipline: pop the
front, expand it through `bfsVisit`, push the newly seen nodes at the next
depth. The invariant below captures the state between pops: either the
queue holds the unexplored remainder of level `d` followed by the part of
level `d+1` discovered so far, or every level below the bound is fully
explored and only bound-depth entries remain. -/

/-- Membership in the seen set after one `bfsVisit` expansion. -/
theorem bfsVisit_mem (ok : GraphEdge → Bool) :
    ∀ (es : List GraphEdge) (seen acc : List String) (x : String),
      x ∈ (bfsVisit ok seen acc es).1 ↔
        x ∈ seen ∨ ∃ e ∈ es, ok e = true ∧ e.dst = x := by
  intro es
  induction es with
  | nil => intro seen acc x; simp [bfsVisit]
  | cons e rest ih =>
      intro seen acc x
      by_cases hc : ok e = true ∧ e.dst ∉ seen
      · rw [bfsVisit, if_pos hc]
        rw [ih]
        simp only [List.exists_mem_cons_iff, List.mem_append,
          List.mem_singleton]
        constructor
        · rintro ((hx | hx) | hx)
          · exact Or.inl hx
          · exact Or.inr (Or.inl ⟨hc.1, hx.symm⟩)
          · exact Or.inr (Or.inr hx)
        · rintro (hx | ⟨hok, hdst⟩ | hx)
          · exact Or.inl (Or.inl hx)
          · exact Or.inl (Or.inr hdst.symm)
          · exact Or.inr hx
      · rw [bfsVisit, if_neg hc]
        rw [ih]
        simp only [List.exists_mem_cons_iff]
        constructor
        · rintro (hx | hx)
          · exact Or.inl hx
          · exact Or.inr (Or.inr hx)
        · rintro (hx | ⟨hok, hdst⟩ | hx)
          · exact Or.inl hx
          · rcases not_and_or.mp hc with h | h
            · exact absurd hok h
            · exact Or.inl (hdst ▸ not_not.mp h)
          · exact Or.inr hx

/-- Structure of one `bfsVisit` expansion: the seen set and the
accumulator both grow by the same suffix of fresh, pairwise distinct
destinations of accepted edges. -/
theorem bfsVisit_struct (ok : GraphEdge → Bool) :
    ∀ (es : List GraphEdge) (seen acc : List String),
      ∃ t, (bfsVisit ok seen acc es).1 = seen ++ t ∧
        (bfsVisit ok seen acc es).2 = acc ++ t ∧ t.Nodup ∧
        ∀ x ∈ t, x ∉ seen ∧ ∃ e ∈ es, ok e = true ∧ e.dst = x := by
  intro es
  induction es with
  | nil =>
      intro seen acc
      exact ⟨[], by simp [bfsVisit], by simp [bfsVisit], List.nodup_nil, by simp⟩
  | cons e rest ih =>
      intro seen acc
      by_cases hc : ok e = true ∧ e.dst ∉ seen
      · obtain ⟨t', h1, h2, hnd, hprop⟩ := ih (seen ++ [e.dst]) (acc ++ [e.dst])
        rw [bfsVisit, if_pos hc]
        refine ⟨e.dst :: t', by rw [h1]; simp, by rw [h2]; simp, ?_, ?_⟩
        · refine List.nodup_cons.mpr ⟨fun hmem' => ?_, hnd⟩
          exact (hprop _ hmem').1 (by simp)
        · intro x hx
          rcases List.mem_cons.mp hx with hx | hx
          · subst hx
            exact ⟨hc.2, e, List.mem_cons_self e rest, hc.1, rfl⟩
          · obtain ⟨hns, e', he', hok', hdst⟩ := hprop x hx
            exact ⟨fun hxs => hns (List.mem_append_left _ hxs),
              e', List.mem_cons_of_mem _ he', hok', hdst⟩
      · obtain ⟨t', h1, h2, hnd, hprop⟩ := ih seen acc
        rw [bfsVisit, if_neg hc]
        refine ⟨t', h1, h2, hnd, fun x hx => ?_⟩
        obtain ⟨hns, e', he', hok', hdst⟩ := hprop x hx
        exact ⟨hns, e', List.mem_cons_of_mem _ he', hok', hdst⟩

/-- How many entries of `keys` are not in `seen`. -/
def missingL (keys seen : List String) : ℕ :=
  (keys.filter fun y => decide (y ∉ seen)).length

theorem missingL_congr {A B : List String} (keys : List String)
    (h : ∀ y, y ∈ A ↔ y ∈ B) : missingL keys A = missingL keys B := by
  unfold missingL
  congr 1
  refine List.filter_congr fun y _ => ?_
  exact decide_eq_decide.mpr (by rw [h y])

theorem missingL_cons_le (keys : List String) (x : String)
    (seen : List String) : missingL keys (x :: seen) ≤ missingL keys seen := by
  unfold missingL
  refine List.Sublist.length_le (List.monotone_filter_right _ ?_)
  intro y hy
  have hy' : y ∉ x :: seen := of_decide_eq_true hy
  exact decide_eq_true (fun hc => hy' (List.mem_cons_of_mem _ hc))

theorem missingL_cons_lt {x : String} {seen : List String} :
    ∀ {keys : List String}, x ∈ keys → x ∉ seen →
      missingL keys (x :: seen) + 1 ≤ missingL keys seen := by
  intro keys
  induction keys with
  | nil => intro h; cases h
  | cons k ks ih =>
      intro hxk hxs
      rcases List.mem_cons.mp hxk with hk | hk
      · subst hk
        unfold missingL
        simp only [List.filter_cons]
        have h1 : (decide (x ∉ x :: seen)) = false := by
          simp
        have h2 : (decide (x ∉ seen)) = true := decide_eq_true hxs
        rw [h1, h2]
        simp only [Bool.false_eq_true, if_false, if_true, List.length_cons]
        have := missingL_cons_le ks x seen
        unfold missingL at this
        omega
      · unfold missingL
        simp only [List.filter_cons]
        have step := ih hk hxs
        unfold missingL at step
        by_cases hkx : k ∈ x :: seen
        · have hks : decide (k ∉ x :: seen) = false := by simp [hkx]
          rw [hks]
          by_cases hk2 : k ∈ seen
          · have : decide (k ∉ seen) = false := by simp [hk2]
            rw [this]
            simpa using step
          · have : decide (k ∉ seen) = true := decide_eq_true hk2
            rw [this]
            simp only [Bool.false_eq_true, if_false, if_true, List.length_cons]
            omega
        · have hks : decide (k ∉ x :: seen) = true := decide_eq_true hkx
          have hk2 : k ∉ seen := fun hc => hkx (List.mem_cons_of_mem _ hc)
          have hk2' : decide (k ∉ seen) = true := decide_eq_true hk2
          rw [hks, hk2']
          simp only [if_true, List.length_cons]
          omega

theorem missingL_append_new (keys : List String) :
    ∀ (t seen : List String), t.Nodup →
      (∀ x ∈ t, x ∈ keys ∧ x ∉ seen) →
      missingL keys (seen ++ t) + t.length ≤ missingL keys seen := by
  intro t
  induction t with
  | nil => intro seen _ _; simp
  | cons x t' ih =>
      intro seen hnd hprop
      have hx := hprop x (List.mem_cons_self x t')
      have hmemiff : ∀ y, y ∈ seen ++ x :: t' ↔ y ∈ (x :: seen) ++ t' := by
        intro y
        simp only [List.mem_append, List.mem_cons]
        tauto
      rw [missingL_congr keys hmemiff]
      have h1 := ih (x :: seen) (List.Nodup.of_cons hnd)
        (fun y hy => ⟨(hprop y (List.mem_cons_of_mem _ hy)).1, by
          intro hc
          rcases List.mem_cons.mp hc with hc | hc
          · exact (List.nodup_cons.mp hnd).1 (hc ▸ hy)
          · exact (hprop y (List.mem_cons_of_mem _ hy)).2 hc⟩)
      have h2 := missingL_cons_lt hx.1 hx.2
      simp only [List.length_cons]
      omega

/-- The node-store keys. -/
def keysOf (g : InteractionGraph) : List String := g.nodes.map Prod.fst

/-- The loop measure: queue length plus unseen keys. -/
def bfsMu (g : InteractionGraph) (seen : List String)
    (queue : List (String × ℕ)) : ℕ :=
  queue.length + missingL (keysOf g) seen

theorem lookupA_isSome_mem_keys {β : Type} {l : List (String × β)}
    {k : String} (h : (lookupA l k).isSome) : k ∈ l.map Prod.fst := by
  induction l with
  | nil => simp [lookupA] at h
  | cons p t ih =>
      rw [lookupA] at h
      by_cases hk : p.1 = k
      · exact hk ▸ List.mem_cons_self _ _
      · rw [if_neg hk] at h
        exact List.mem_cons_of_mem _ (ih h)

/-- Mid-phase BFS invariant: `q1` is the unexplored remainder of level `d`,
`q2` the part of level `d+1` discovered so far (exactly the fresh successors
of the explored part of level `d`), and the seen set is the `d`-ball plus
`q2`. -/
def BfsInv1 (g : InteractionGraph) (ok : GraphEdge → Bool) (seed : String)
    (D d : ℕ) (q1 q2 members : List String) : Prop :=
  d < D ∧ (q1 ++ q2).Nodup ∧
  (∀ x ∈ q1, x ∈ levelSet (stepRel g ok) seed d) ∧
  (∀ x, x ∈ members ↔ x ∈ RSet (stepRel g ok) seed d ∨ x ∈ q2) ∧
  (∀ x, x ∈ q2 ↔ x ∉ RSet (stepRel g ok) seed d ∧
     ∃ u, (u ∈ levelSet (stepRel g ok) seed d ∧ u ∉ q1) ∧ stepRel g ok u x)

/-- Full BFS invariant: either mid-phase below the depth bound, or the seen
set is the whole `D`-ball and only bound-depth entries remain queued. -/
def BfsInv (g : InteractionGraph) (ok : GraphEdge → Bool) (seed : String)
    (D : ℕ) (members : List String) (queue : List (String × ℕ)) : Prop :=
  (∃ d q1 q2,
      queue = q1.map (fun x => (x, d)) ++ q2.map (fun x => (x, d + 1)) ∧
      BfsInv1 g ok seed D d q1 q2 members) ∨
  ((∀ x, x ∈ members ↔ x ∈ RSet (stepRel g ok) seed D) ∧
    ∀ p ∈ queue, p.2 = D)

theorem bfs_inv_initial (g : InteractionGraph) (ok : GraphEdge → Bool)
    (seed : String) (D : ℕ) : BfsInv g ok seed D [seed] [(seed, 0)] := by
  cases D with
  | zero =>
      refine Or.inr ⟨fun x => ?_, by simp⟩
      simp [RSet, Set.mem_singleton_iff]
  | succ D' =>
      refine Or.inl ⟨0, [seed], [], by simp, Nat.succ_pos D', by simp, ?_, ?_, ?_⟩
      · intro x hx
        rcases List.mem_singleton.mp hx with rfl
        rfl
      · intro x
        constructor
        · intro hx
          exact Or.inl (List.mem_singleton.mp hx)
        · rintro (hx | hx)
          · exact List.mem_singleton.mpr hx
          · cases hx
      · intro x
        constructor
        · intro hx; cases hx
        · rintro ⟨_, u, ⟨hu, hnu⟩, _⟩
          exact absurd (List.mem_singleton.mpr hu) hnu

theorem bfs_inv_nil {g : InteractionGraph} {ok : GraphEdge → Bool}
    {seed : String} {D : ℕ} {members : List String}
    (h : BfsInv g ok seed D members []) :
    ∀ x, x ∈ members ↔ x ∈ RSet (stepRel g ok) seed D := by
  rcases h with ⟨d, q1, q2, hqe, hlt, _, _, hb, hc⟩ | ⟨hm, _⟩
  · have hq1 : q1 = [] := by
      cases q1 with
      | nil => rfl
      | cons a t => simp at hqe
    have hq2 : q2 = [] := by
      cases q2 with
      | nil => rfl
      | cons a t =>
          rw [hq1] at hqe
          simp at hqe
    subst hq1; subst hq2
    have hfr : NextSet (stepRel g ok) (levelSet (stepRel g ok) seed d) \
        RSet (stepRel g ok) seed d = ∅ := by
      ext x
      simp only [Set.mem_empty_iff_false, iff_false, Set.mem_diff]
      rintro ⟨⟨u, hu, hs⟩, hnx⟩
      exact (List.not_mem_nil x) ((hc x).mpr ⟨hnx, u, ⟨hu, List.not_mem_nil u⟩, hs⟩)
    have hstep : RSet (stepRel g ok) seed (d + 1) = RSet (stepRel g ok) seed d := by
      rw [RSet_succ_frontier, hfr]
      simp
    have hD := RSet_stall hstep (Nat.le_of_lt hlt)
    intro x
    rw [hb x, hD]
    simp
  · exact hm

/-- One expansion step preserves the invariant and strictly decreases the
measure. -/
theorem bfs_inv_expand {g : InteractionGraph} {ok : GraphEdge → Bool}
    {seed : String} {D d : ℕ} {u : String} {q1' q2 members : List String}
    (hok : ∀ e, ok e = true → (lookupA g.nodes e.dst).isSome)
    (h : BfsInv1 g ok seed D d (u :: q1') q2 members) :
    BfsInv g ok seed D (bfsVisit ok members [] (neighbors g u)).1
      ((q1'.map (fun x => (x, d)) ++ q2.map (fun x => (x, d + 1))) ++
        (bfsVisit ok members [] (neighbors g u)).2.map (fun x => (x, d + 1))) ∧
    bfsMu g (bfsVisit ok members [] (neighbors g u)).1
      ((q1'.map (fun x => (x, d)) ++ q2.map (fun x => (x, d + 1))) ++
        (bfsVisit ok members [] (neighbors g u)).2.map (fun x => (x, d + 1))) + 1 ≤
    bfsMu g members
      ((u, d) :: (q1'.map (fun x => (x, d)) ++ q2.map (fun x => (x, d + 1)))) := by
  obtain ⟨hlt, hnd, ha, hb, hc⟩ := h
  obtain ⟨t, ht1, ht2, htnd, htprop⟩ := bfsVisit_struct ok (neighbors g u) members []
  have ht2' : (bfsVisit ok members [] (neighbors g u)).2 = t := by
    rw [ht2]; simp
  have hu_level : u ∈ levelSet (stepRel g ok) seed d := ha u (List.mem_cons_self _ _)
  have hnd0 : (u :: (q1' ++ q2)).Nodup := by simpa using hnd
  have hnd' := List.nodup_cons.mp hnd0
  have hu_not_q1' : u ∉ q1' := fun hc' => hnd'.1 (List.mem_append_left _ hc')
  have hmem_sub : ∀ x, x ∈ RSet (stepRel g ok) seed d → x ∈ members :=
    fun x hx => (hb x).mpr (Or.inl hx)
  have hq2_sub : ∀ x, x ∈ q2 → x ∈ members := fun x hx => (hb x).mpr (Or.inr hx)
  have ht_step : ∀ x ∈ t, x ∉ members ∧ stepRel g ok u x := by
    intro x hx
    obtain ⟨hnm, e, he, hoke, hdst⟩ := htprop x hx
    exact ⟨hnm, e, he, hoke, hdst⟩
  have hq1'_mem : ∀ x ∈ q1', x ∈ members := by
    intro x hx
    exact hmem_sub x (by
      have := ha x (List.mem_cons_of_mem _ hx)
      cases d with
      | zero => exact this ▸ rfl
      | succ d' => exact this.1)
  refine ⟨Or.inl ⟨d, q1', q2 ++ t, ?_, hlt, ?_, ?_, ?_, ?_⟩, ?_⟩
  · rw [ht2', List.map_append, List.append_assoc]
  · rw [← List.append_assoc]
    refine List.nodup_append.mpr ⟨?_, htnd, ?_⟩
    · exact hnd'.2
    · intro x hx hxt
      have hxm : x ∈ members := by
        rcases List.mem_append.mp hx with hx' | hx'
        · exact hq1'_mem x hx'
        · exact hq2_sub x hx'
      exact (ht_step x hxt).1 hxm
  · exact fun x hx => ha x (List.mem_cons_of_mem _ hx)
  · intro x
    rw [ht1]
    simp only [List.mem_append]
    constructor
    · rintro (hx | hx)
      · rcases (hb x).mp hx with hx' | hx'
        · exact Or.inl hx'
        · exact Or.inr (Or.inl hx')
      · exact Or.inr (Or.inr hx)
    · rintro (hx | hx | hx)
      · exact Or.inl (hmem_sub x hx)
      · exact Or.inl (hq2_sub x hx)
      · exact Or.inr hx
  · intro x
    simp only [List.mem_append]
    constructor
    · rintro (hx | hx)
      · obtain ⟨hnx, u', ⟨hu'l, hu'n⟩, hs⟩ := (hc x).mp hx
        exact ⟨hnx, u', ⟨hu'l, fun hc' => hu'n (List.mem_cons_of_mem _ hc')⟩, hs⟩
      · obtain ⟨hnm, hs⟩ := ht_step x hx
        refine ⟨fun hc' => hnm (hmem_sub x hc'), u, ⟨hu_level, hu_not_q1'⟩, hs⟩
    · rintro ⟨hnx, u', ⟨hu'l, hu'n⟩, hs⟩
      by_cases huu : u' = u
      · subst huu
        have hx1 : x ∈ (bfsVisit ok members [] (neighbors g u')).1 := by
          rw [bfsVisit_mem]
          exact Or.inr hs
        rw [ht1] at hx1
        rcases List.mem_append.mp hx1 with hx' | hx'
        · rcases (hb x).mp hx' with hx'' | hx''
          · exact absurd hx'' hnx
          · exact Or.inl hx''
        · exact Or.inr hx'
      · have hu'n' : u' ∉ u :: q1' := by
          intro hc'
          rcases List.mem_cons.mp hc' with h' | h'
          · exact huu h'
          · exact hu'n h'
        exact Or.inl ((hc x).mpr ⟨hnx, u', ⟨hu'l, hu'n'⟩, hs⟩)
  · have htkeys : ∀ x ∈ t, x ∈ keysOf g ∧ x ∉ members := by
      intro x hx
      obtain ⟨hnm, e, _, hoke, hdst⟩ := htprop x hx
      exact ⟨hdst ▸ lookupA_isSome_mem_keys (hok e hoke), hnm⟩
    have hmiss := missingL_append_new (keysOf g) t members htnd htkeys
    rw [ht1, ht2']
    unfold bfsMu
    simp only [List.length_append, List.length_cons, List.length_map]
    omega

/-- Exhausting the unexplored part of a level shifts the invariant one level
deeper, or closes it at the depth bound. -/
theorem bfs_inv_shift {g : InteractionGraph} {ok : GraphEdge → Bool}
    {seed : String} {D d : ℕ} {q2 members : List String}
    (h : BfsInv1 g ok seed D d [] q2 members) :
    (d + 1 < D ∧ BfsInv1 g ok seed D (d + 1) q2 [] members) ∨
    ((∀ x, x ∈ members ↔ x ∈ RSet (stepRel g ok) seed D) ∧ d + 1 = D) := by
  obtain ⟨hlt, hnd, _, hb, hc⟩ := h
  have hq2lev : ∀ x, x ∈ q2 ↔ x ∈ levelSet (stepRel g ok) seed (d + 1) := by
    intro x
    rw [hc x]
    show _ ↔ x ∈ RSet (stepRel g ok) seed (d + 1) \ RSet (stepRel g ok) seed d
    rw [RSet_succ_frontier]
    constructor
    · rintro ⟨hnx, u, ⟨hu, _⟩, hs⟩
      exact ⟨Or.inr ⟨⟨u, hu, hs⟩, hnx⟩, hnx⟩
    · rintro ⟨hx, hnx⟩
      rcases hx with hx | ⟨⟨u, hu, hs⟩, _⟩
      · exact absurd hx hnx
      · exact ⟨hnx, u, ⟨hu, List.not_mem_nil u⟩, hs⟩
  have hmem' : ∀ x, x ∈ members ↔ x ∈ RSet (stepRel g ok) seed (d + 1) := by
    intro x
    rw [hb x]
    constructor
    · rintro (hx | hx)
      · exact RSet_subset_succ d hx
      · exact ((hq2lev x).mp hx).1
    · intro hx
      by_cases hxd : x ∈ RSet (stepRel g ok) seed d
      · exact Or.inl hxd
      · exact Or.inr ((hq2lev x).mpr ⟨hx, hxd⟩)
  by_cases hD : d + 1 < D
  · refine Or.inl ⟨hD, hD, by simpa using hnd, fun x hx => (hq2lev x).mp hx, ?_, ?_⟩
    · intro x
      rw [hmem' x]
      simp
    · intro x
      constructor
      · intro hx; cases hx
      · rintro ⟨hnx, u, ⟨hu, hun⟩, _⟩
        exact absurd ((hq2lev u).mpr hu) hun
  · have hDeq : d + 1 = D := by omega
    exact Or.inr ⟨fun x => hDeq ▸ hmem' x, hDeq⟩

theorem growOk_dst_known (g : InteractionGraph) (em : ℚ) :
    ∀ e, growStepOk g em e = true → (lookupA g.nodes e.dst).isSome := by
  intro e h
  unfold growStepOk at h
  rcases Bool.and_eq_true_iff.mp h with ⟨_, h2⟩
  cases hl : lookupA g.nodes e.dst with
  | some n => simp
  | none =>
      have hnt : node_type g e.dst = none := by
        unfold node_type
        rw [hl]
        rfl
      rw [hnt] at h2
      cases h2

theorem seedOk_dst_known (g : InteractionGraph) (em : ℚ) :
    ∀ e, seedStepOk g em e = true → (lookupA g.nodes e.dst).isSome := by
  intro e h
  unfold seedStepOk at h
  rcases Bool.and_eq_true_iff.mp h with ⟨_, h2⟩
  cases hl : lookupA g.nodes e.dst with
  | some n => simp
  | none =>
      have hnt : node_type g e.dst = none := by
        unfold node_type
        rw [hl]
        rfl
      rw [hnt] at h2
      cases h2

theorem growLoop_step_iff (g : InteractionGraph) (em : ℚ) (seed : String)
    (D : ℕ) (fuel : ℕ)
    (ih : ∀ members queue, BfsInv g (growStepOk g em) seed D members queue →
      bfsMu g members queue ≤ fuel →
      ∀ v, v ∈ growLoop g em D fuel members queue ↔
        v ∈ RSet (stepRel g (growStepOk g em)) seed D)
    {d : ℕ} {u : String} {q1' q2 members : List String}
    (hinv1 : BfsInv1 g (growStepOk g em) seed D d (u :: q1') q2 members)
    (hmu : bfsMu g members
        ((u, d) :: (q1'.map (fun x => (x, d)) ++ q2.map (fun x => (x, d + 1)))) ≤
      fuel + 1)
    (v : String) :
    v ∈ growLoop g em D (fuel + 1) members
        ((u, d) :: (q1'.map (fun x => (x, d)) ++ q2.map (fun x => (x, d + 1)))) ↔
      v ∈ RSet (stepRel g (growStepOk g em)) seed D := by
  have hdD : ¬ (D ≤ d) := Nat.not_le.mpr hinv1.1
  obtain ⟨hinv', hmu'⟩ := bfs_inv_expand (growOk_dst_known g em) hinv1
  simp only [growLoop]
  rw [if_neg hdD]
  exact ih _ _ hinv' (by omega) v

theorem growLoop_mem_iff (g : InteractionGraph) (em : ℚ) (seed : String)
    (D : ℕ) :
    ∀ (fuel : ℕ) (members : List String) (queue : List (String × ℕ)),
      BfsInv g (growStepOk g em) seed D members queue →
      bfsMu g members queue ≤ fuel →
      ∀ v, v ∈ growLoop g em D fuel members queue ↔
        v ∈ RSet (stepRel g (growStepOk g em)) seed D := by
  intro fuel
  induction fuel with
  | zero =>
      intro members queue hinv hmu v
      cases queue with
      | nil => simp only [growLoop]; exact bfs_inv_nil hinv v
      | cons hd tl => exact absurd hmu (by simp [bfsMu])
  | succ fuel ih =>
      intro members queue hinv hmu v
      cases queue with
      | nil => simp only [growLoop]; exact bfs_inv_nil hinv v
      | cons hd tl =>
          rcases hinv with ⟨d, q1, q2, hqe, hinv1⟩ | ⟨hmm, hdep⟩
          · cases q1 with
            | cons u q1' =>
                have hqe' : hd = (u, d) ∧
                    tl = q1'.map (fun x => (x, d)) ++ q2.map (fun x => (x, d + 1)) := by
                  simpa using hqe
                obtain ⟨h1, h2⟩ := hqe'
                subst h1; subst h2
                exact growLoop_step_iff g em seed D fuel ih hinv1 hmu v
            | nil =>
                have hqe2 : hd :: tl = q2.map (fun x => (x, d + 1)) := by
                  simpa using hqe
                rcases bfs_inv_shift hinv1 with ⟨_, hinv1'⟩ | ⟨hmm, hDeq⟩
                · cases q2 with
                  | nil => simp at hqe2
                  | cons w q2' =>
                      have h1 : hd = (w, d + 1) ∧
                          tl = q2'.map (fun x => (x, d + 1)) := by
                        simpa using hqe2
                      obtain ⟨hh1, hh2⟩ := h1
                      subst hh1; subst hh2
                      have hinv1'' : BfsInv1 g (growStepOk g em) seed D (d + 1)
                          (w :: q2') [] members := hinv1'
                      have := growLoop_step_iff g em seed D fuel ih hinv1''
                        (by simpa using hmu) v
                      simpa using this
                · cases q2 with
                  | nil => simp at hqe2
                  | cons w q2' =>
                      have h1 : hd = (w, d + 1) ∧
                          tl = q2'.map (fun x => (x, d + 1)) := by
                        simpa using hqe2
                      obtain ⟨hh1, hh2⟩ := h1
                      subst hh1; subst hh2
                      simp only [growLoop]
                      rw [if_pos (le_of_eq hDeq.symm)]
                      refine ih _ _ (Or.inr ⟨hmm, ?_⟩) ?_ v
                      · intro p hp
                        obtain ⟨x, _, hx2⟩ := List.mem_map.mp hp
                        rw [← hx2, ← hDeq]
                      · have : bfsMu g members (q2'.map (fun x => (x, d + 1))) + 1 =
                            bfsMu g members
                              ((w, d + 1) :: q2'.map (fun x => (x, d + 1))) := by
                          unfold bfsMu
                          simp only [List.length_cons, List.length_map]
                          omega
                        omega
          · cases hd with
            | mk cur dep =>
                have hdeq : dep = D := hdep (cur, dep) (List.mem_cons_self _ _)
                subst hdeq
                simp only [growLoop]
                rw [if_pos (le_refl dep)]
                refine ih _ _
                  (Or.inr ⟨hmm, fun p hp => hdep p (List.mem_cons_of_mem _ hp)⟩) ?_ v
                have : bfsMu g members tl + 1 = bfsMu g members ((cur, dep) :: tl) := by
                  unfold bfsMu
                  simp only [List.length_cons]
                  omega
                omega

/-- The member list grown from a seed is exactly the ball of radius
`max_growth_depth` around the seed along accepted edges. -/
theorem grow_members_iff_RSet (g : InteractionGraph) (em : ℚ) (D : ℕ)
    (seed : String) (v : String) :
    v ∈ grow_members g em D seed ↔
      v ∈ RSet (stepRel g (growStepOk g em)) seed D := by
  unfold grow_members
  refine growLoop_mem_iff g em seed D (g.nodes.length + 1) [seed] [(seed, 0)]
    (bfs_inv_initial g (growStepOk g em) seed D) ?_ v
  have : missingL (keysOf g) [seed] ≤ (keysOf g).length :=
    List.length_filter_le _ _
  have hk : (keysOf g).length = g.nodes.length := by
    unfold keysOf
    exact List.length_map _ _
  simp only [bfsMu, List.length_singleton]
  omega

/-- Every id of the seen set has either a pending queue entry or has already
been popped and target-checked (and failed the check). -/
def TCChecked (targets : List String) (nid : String) (seen : List String)
    (queue : List (String × ℕ)) : Prop :=
  ∀ x ∈ seen, (∃ dd, (x, dd) ∈ queue) ∨ x ∉ targets ∨ x = nid

/-- What `_too_close_to_existing_seed` returning `false` certifies: no
target other than the start is within `dist` hops. -/
def TCGoal (g : InteractionGraph) (em : ℚ) (targets : List String)
    (nid : String) (dist : ℕ) : Prop :=
  ∀ s ∈ targets, s ≠ nid → s ∉ RSet (stepRel g (seedStepOk g em)) nid dist

theorem tc_head_le {g : InteractionGraph} {ok : GraphEdge → Bool}
    {nid : String} {dist : ℕ} {seen : List String} {cur : String}
    {dcur : ℕ} {tl : List (String × ℕ)}
    (hinv : BfsInv g ok nid dist seen ((cur, dcur) :: tl)) : dcur ≤ dist := by
  rcases hinv with ⟨d, q1, q2, hqe, hinv1⟩ | ⟨_, hdep⟩
  · cases q1 with
    | cons u q1' =>
        have : dcur = d := by
          have := hqe
          simp only [List.map_cons, List.cons_append, List.cons.injEq,
            Prod.mk.injEq] at this
          exact this.1.2
        have hlt := hinv1.1
        omega
    | nil =>
        cases q2 with
        | nil => simp at hqe
        | cons w q2' =>
            have : dcur = d + 1 := by
              have := hqe
              simp only [List.map_cons, List.map_nil, List.nil_append,
                List.cons.injEq, Prod.mk.injEq] at this
              exact this.1.2
            have := hinv1.1
            omega
  · have := hdep (cur, dcur) (List.mem_cons_self _ _)
    simp at this
    omega

/-- The expansion case of the completeness argument for
`_too_close_to_existing_seed`. -/
theorem tc_expand (g : InteractionGraph) (em : ℚ) (targets : List String)
    (nid : String) (dist : ℕ) (fuel : ℕ)
    (ih : ∀ seen queue,
      BfsInv g (seedStepOk g em) nid dist seen queue →
      TCChecked targets nid seen queue → bfsMu g seen queue ≤ fuel →
      tooCloseLoop g em targets nid dist fuel seen queue = false →
      TCGoal g em targets nid dist)
    {d : ℕ} {u : String} {q1' q2 seen : List String}
    (hinv1 : BfsInv1 g (seedStepOk g em) nid dist d (u :: q1') q2 seen)
    (hchk : TCChecked targets nid seen
      ((u, d) :: (q1'.map (fun x => (x, d)) ++ q2.map (fun x => (x, d + 1)))))
    (hmu : bfsMu g seen
      ((u, d) :: (q1'.map (fun x => (x, d)) ++ q2.map (fun x => (x, d + 1)))) ≤
      fuel + 1)
    (hfalse : tooCloseLoop g em targets nid dist (fuel + 1) seen
      ((u, d) :: (q1'.map (fun x => (x, d)) ++ q2.map (fun x => (x, d + 1)))) =
      false) :
    TCGoal g em targets nid dist := by
  have hdlt : d < dist := hinv1.1
  have hnlt : ¬ (dist < d) := by omega
  have hne : ¬ (d = dist) := by omega
  simp only [tooCloseLoop] at hfalse
  rw [if_neg hnlt] at hfalse
  by_cases htc : u ∈ targets ∧ u ≠ nid
  · rw [if_pos htc] at hfalse
    cases hfalse
  · rw [if_neg htc, if_neg hne] at hfalse
    obtain ⟨hinv', hmu'⟩ := bfs_inv_expand (seedOk_dst_known g em) hinv1
    obtain ⟨t, ht1, ht2, _, _⟩ :=
      bfsVisit_struct (seedStepOk g em) (neighbors g u) seen []
    have ht2' : (bfsVisit (seedStepOk g em) seen [] (neighbors g u)).2 = t := by
      rw [ht2]; simp
    refine ih _ _ hinv' ?_ (by omega) hfalse
    intro x hx
    rw [ht1] at hx
    rcases List.mem_append.mp hx with hxs | hxt
    · rcases hchk x hxs with ⟨dd, hdd⟩ | h | h
      · rcases List.mem_cons.mp hdd with heq | hmemtl
        · have hxu : x = u := by
            have := heq
            simp only [Prod.mk.injEq] at this
            exact this.1
          subst hxu
          right
          rcases not_and_or.mp htc with h' | h'
          · exact Or.inl h'
          · exact Or.inr (not_not.mp h')
        · exact Or.inl ⟨dd, List.mem_append_left _ hmemtl⟩
      · exact Or.inr (Or.inl h)
      · exact Or.inr (Or.inr h)
    · refine Or.inl ⟨d + 1, List.mem_append_right _ ?_⟩
      rw [ht2']
      exact List.mem_map.mpr ⟨x, hxt, rfl⟩

theorem tooCloseLoop_complete (g : InteractionGraph) (em : ℚ)
    (targets : List String) (nid : String) (dist : ℕ) :
    ∀ (fuel : ℕ) (seen : List String) (queue : List (String × ℕ)),
      BfsInv g (seedStepOk g em) nid dist seen queue →
      TCChecked targets nid seen queue →
      bfsMu g seen queue ≤ fuel →
      tooCloseLoop g em targets nid dist fuel seen queue = false →
      TCGoal g em targets nid dist := by
  intro fuel
  induction fuel with
  | zero =>
      intro seen queue hinv hchk hmu _ s hst hsn hsR
      cases queue with
      | nil =>
          have hs_seen : s ∈ seen := (bfs_inv_nil hinv s).mpr hsR
          rcases hchk s hs_seen with ⟨dd, hdd⟩ | h | h
          · cases hdd
          · exact h hst
          · exact hsn h
      | cons hd tl => exact absurd hmu (by simp [bfsMu])
  | succ fuel ih =>
      intro seen queue hinv hchk hmu hfalse
      cases queue with
      | nil =>
          intro s hst hsn hsR
          have hs_seen : s ∈ seen := (bfs_inv_nil hinv s).mpr hsR
          rcases hchk s hs_seen with ⟨dd, hdd⟩ | h | h
          · cases hdd
          · exact h hst
          · exact hsn h
      | cons hd tl =>
          cases hd with
          | mk cur dcur =>
              have hle : dcur ≤ dist := tc_head_le hinv
              have hchk_tl : ¬ (cur ∈ targets ∧ cur ≠ nid) →
                  TCChecked targets nid seen tl := by
                intro hntc x hx
                rcases hchk x hx with ⟨dd, hdd⟩ | h | h
                · rcases List.mem_cons.mp hdd with heq | hmemtl
                  · have hxu : x = cur := by
                      have := heq
                      simp only [Prod.mk.injEq] at this
                      exact this.1
                    subst hxu
                    right
                    rcases not_and_or.mp hntc with h' | h'
                    · exact Or.inl h'
                    · exact Or.inr (not_not.mp h')
                  · exact Or.inl ⟨dd, hmemtl⟩
                · exact Or.inr (Or.inl h)
                · exact Or.inr (Or.inr h)
              have hmu_tl : bfsMu g seen tl + 1 =
                  bfsMu g seen ((cur, dcur) :: tl) := by
                unfold bfsMu
                simp only [List.length_cons]
                omega
              rcases hinv with ⟨d, q1, q2, hqe, hinv1⟩ | ⟨hmm, hdep⟩
              · cases q1 with
                | cons u q1' =>
                    have hqe' : cur = u ∧ dcur = d ∧
                        tl = q1'.map (fun x => (x, d)) ++
                          q2.map (fun x => (x, d + 1)) := by
                      have := hqe
                      simp only [List.map_cons, List.cons_append,
                        List.cons.injEq, Prod.mk.injEq] at this
                      exact ⟨this.1.1, this.1.2, this.2⟩
                    obtain ⟨h1, h2, h3⟩ := hqe'
                    subst h1; subst h2; subst h3
                    exact tc_expand g em targets nid dist fuel ih hinv1 hchk
                      hmu hfalse
                | nil =>
                    have hqe2 : (cur, dcur) :: tl =
                        q2.map (fun x => (x, d + 1)) := by
                      simpa using hqe
                    rcases bfs_inv_shift hinv1 with ⟨hlt, hinv1'⟩ | ⟨hmm2, hDeq⟩
                    · cases q2 with
                      | nil => simp at hqe2
                      | cons w q2' =>
                          have h1 : cur = w ∧ dcur = d + 1 ∧
                              tl = q2'.map (fun x => (x, d + 1)) := by
                            have := hqe2
                            simp only [List.map_cons, List.cons.injEq,
                              Prod.mk.injEq] at this
                            exact ⟨this.1.1, this.1.2, this.2⟩
                          obtain ⟨hh1, hh2, hh3⟩ := h1
                          rw [hh1, hh2, hh3] at hfalse hmu hchk
                          have hinv1'' : BfsInv1 g (seedStepOk g em) nid dist
                              (d + 1) (w :: q2') [] seen := hinv1'
                          refine tc_expand g em targets nid dist fuel ih hinv1''
                            ?_ (by simpa using hmu) (by simpa using hfalse)
                          simpa using hchk
                    · -- at the bound: the pop is target-checked then skipped
                      cases q2 with
                      | nil => simp at hqe2
                      | cons w q2' =>
                          have h1 : cur = w ∧ dcur = d + 1 ∧
                              tl = q2'.map (fun x => (x, d + 1)) := by
                            have := hqe2
                            simp only [List.map_cons, List.cons.injEq,
                              Prod.mk.injEq] at this
                            exact ⟨this.1.1, this.1.2, this.2⟩
                          obtain ⟨hh1, hh2, hh3⟩ := h1
                          have hdcur : dcur = dist := by omega
                          simp only [tooCloseLoop] at hfalse
                          rw [if_neg (by omega : ¬ (dist < dcur))] at hfalse
                          by_cases htc : cur ∈ targets ∧ cur ≠ nid
                          · rw [if_pos htc] at hfalse
                            cases hfalse
                          · rw [if_neg htc, if_pos hdcur] at hfalse
                            refine ih seen tl ?_ (hchk_tl htc) (by omega) hfalse
                            refine Or.inr ⟨fun x => hDeq ▸ (hmm2 x), ?_⟩
                            intro p hp
                            rw [hh3] at hp
                            obtain ⟨x, _, hx2⟩ := List.mem_map.mp hp
                            rw [← hx2]
                            simp
                            omega
              · -- all remaining entries are at the bound
                have hdcur : dcur = dist := by
                  have := hdep (cur, dcur) (List.mem_cons_self _ _)
                  simpa using this
                simp only [tooCloseLoop] at hfalse
                rw [if_neg (by omega : ¬ (dist < dcur))] at hfalse
                by_cases htc : cur ∈ targets ∧ cur ≠ nid
                · rw [if_pos htc] at hfalse
                  cases hfalse
                · rw [if_neg htc, if_pos hdcur] at hfalse
                  refine ih seen tl ?_ (hchk_tl htc) (by omega) hfalse
                  exact Or.inr ⟨hmm, fun p hp => hdep p (List.mem_cons_of_mem _ hp)⟩

/-- Completeness of the seed-separation test: a `false` answer means no
already-accepted seed other than the candidate itself lies within
`dist` hops of the candidate along accepted edges. -/
theorem too_close_false_not_reach {g : InteractionGraph} {nid : String}
    {seeds : List (String × ℚ)} {dist : ℕ} {em : ℚ}
    (h : too_close_to_existing_seed g nid seeds dist em = false) :
    ∀ s ∈ seeds.map Prod.fst, s ≠ nid →
      ¬ ReachLe (stepRel g (seedStepOk g em)) nid s dist := by
  intro s hs hsn hR
  unfold too_close_to_existing_seed at h
  by_cases hempty : seeds = []
  · rw [hempty] at hs
    cases hs
  · rw [if_neg hempty] at h
    refine tooCloseLoop_complete g em (seeds.map Prod.fst) nid dist
      (g.nodes.length + 1) [nid] [(nid, 0)]
      (bfs_inv_initial g (seedStepOk g em) nid dist) ?_ ?_ h s hs hsn
      (reachLe_iff_mem_RSet.mp hR)
    · intro x hx
      rcases List.mem_singleton.mp hx with rfl
      exact Or.inr (Or.inr rfl)
    · have : missingL (keysOf g) [nid] ≤ (keysOf g).length :=
        List.length_filter_le _ _
      have hk : (keysOf g).length = g.nodes.length := by
        unfold keysOf
        exact List.length_map _ _
      simp only [bfsMu, List.length_singleton]
      omega

/-! ## Properties of the select_seeds walk. -/

/-- Seed-candidate eligibility: the id resolves to a node of seed-eligible
type. -/
def SeedCand (g : InteractionGraph) (nid : String) : Prop :=
  ∃ nt, node_type g nid = some nt ∧ nt ∈ SEED_ALLOWED_TYPES

/-- The separation property the walk maintains between an earlier accepted
seed `a` and a later accepted seed `b`. -/
def SeedSep (g : InteractionGraph) (sp : SeedParams) (cp : ClusterParams)
    (a b : String × ℚ) : Prop :=
  a.1 ≠ b.1 ∧
    ¬ ReachLe (stepRel g (seedStepOk g cp.edge_min)) b.1 a.1
      sp.seed_separation_distance

theorem filterMap_pair_fst_sublist (f : String → Option ℚ) :
    ∀ l : List String,
      ((l.filterMap fun nid => (f nid).map fun sc => (nid, sc)).map
        Prod.fst).Sublist l := by
  intro l
  induction l with
  | nil => simp
  | cons x t ih =>
      rw [List.filterMap_cons]
      cases hf : f x with
      | none =>
          simp only [Option.map_none']
          exact ih.cons x
      | some sc =>
          simp only [Option.map_some', List.map_cons]
          exact ih.cons₂ x

theorem lookupA_eq_of_mem_nodup {β : Type} :
    ∀ {l : List (String × β)}, (l.map Prod.fst).Nodup →
      ∀ {p : String × β}, p ∈ l → lookupA l p.1 = some p.2 := by
  intro l
  induction l with
  | nil => intro _ p hp; cases hp
  | cons q t ih =>
      intro hnd p hp
      rw [List.map_cons] at hnd
      have hnd' := List.nodup_cons.mp hnd
      rcases List.mem_cons.mp hp with heq | hmem
      · subst heq
        rw [lookupA, if_pos rfl]
      · rw [lookupA]
        by_cases hq : q.1 = p.1
        · exfalso
          refine hnd'.1 ?_
          rw [hq]
          exact List.mem_map.mpr ⟨p, hmem, rfl⟩
        · rw [if_neg hq]
          exact ih hnd'.2 hmem

theorem selectWalk_aux (g : InteractionGraph) (sp : SeedParams)
    (cp : ClusterParams) :
    ∀ (rest acc : List (String × ℚ)),
      (∀ x ∈ acc, sp.seed_min ≤ x.2 ∧ SeedCand g x.1) →
      acc.Pairwise (SeedSep g sp cp) →
      (acc.map Prod.fst).Nodup →
      (∀ x ∈ rest, SeedCand g x.1) →
      (rest.map Prod.fst).Nodup →
      (∀ x ∈ rest, x.1 ∉ acc.map Prod.fst) →
      (∀ x ∈ rest.foldl (selectStep g sp cp) acc,
        sp.seed_min ≤ x.2 ∧ SeedCand g x.1) ∧
      (rest.foldl (selectStep g sp cp) acc).Pairwise (SeedSep g sp cp) := by
  intro rest
  induction rest with
  | nil =>
      intro acc hacc hpw _ _ _ _
      exact ⟨hacc, hpw⟩
  | cons x rest' ih =>
      intro acc hacc hpw hnd hcand hrnd hsep
      rw [List.foldl_cons]
      rw [List.map_cons] at hrnd
      have hrnd' := List.nodup_cons.mp hrnd
      unfold selectStep
      by_cases h1 : x.2 < sp.seed_min
      · rw [if_pos h1]
        exact ih acc hacc hpw hnd
          (fun y hy => hcand y (List.mem_cons_of_mem _ hy)) hrnd'.2
          (fun y hy => hsep y (List.mem_cons_of_mem _ hy))
      · rw [if_neg h1]
        by_cases h2 : too_close_to_existing_seed g x.1 acc
            sp.seed_separation_distance cp.edge_min = true
        · rw [if_pos h2]
          exact ih acc hacc hpw hnd
            (fun y hy => hcand y (List.mem_cons_of_mem _ hy)) hrnd'.2
            (fun y hy => hsep y (List.mem_cons_of_mem _ hy))
        · rw [if_neg h2]
          have hfalse : too_close_to_existing_seed g x.1 acc
              sp.seed_separation_distance cp.edge_min = false := by
            simpa using h2
          have hxid : x.1 ∉ acc.map Prod.fst := hsep x (List.mem_cons_self _ _)
          refine ih (acc ++ [x]) ?_ ?_ ?_
            (fun y hy => hcand y (List.mem_cons_of_mem _ hy)) hrnd'.2 ?_
          · intro y hy
            rcases List.mem_append.mp hy with hy' | hy'
            · exact hacc y hy'
            · rcases List.mem_singleton.mp hy' with rfl
              exact ⟨not_lt.mp h1, hcand y (List.mem_cons_self _ _)⟩
          · refine List.pairwise_append.mpr ⟨hpw, List.pairwise_singleton _ _, ?_⟩
            intro a ha b hb
            rcases List.mem_singleton.mp hb with rfl
            refine ⟨?_, ?_⟩
            · intro hc
              exact hxid (hc ▸ List.mem_map.mpr ⟨a, ha, rfl⟩)
            · exact too_close_false_not_reach hfalse a.1
                (List.mem_map.mpr ⟨a, ha, rfl⟩)
                (fun hc => hxid (hc ▸ List.mem_map.mpr ⟨a, ha, rfl⟩))
          · rw [List.map_append]
            refine List.nodup_append.mpr ⟨hnd, by simp, ?_⟩
            intro y hy hy'
            rcases List.mem_singleton.mp hy' with rfl
            exact hxid hy
          · intro y hy
            rw [List.map_append]
            intro hc
            rcases List.mem_append.mp hc with hc' | hc'
            · exact hsep y (List.mem_cons_of_mem _ hy) hc'
            · rcases List.mem_singleton.mp hc' with heq
              exact hrnd'.1 (heq ▸ List.mem_map.mpr ⟨y, hy, rfl⟩)

/-- Every accepted seed scores at least the configured minimum and is a
seed-eligible node, and later accepted seeds are separated from all earlier
ones. -/
theorem select_seeds_props (g : InteractionGraph) (sp : SeedParams)
    (cp : ClusterParams) (hkeys : (g.nodes.map Prod.fst).Nodup) :
    (∀ x ∈ select_seeds g sp cp, sp.seed_min ≤ x.2 ∧ SeedCand g x.1) ∧
    (select_seeds g sp cp).Pairwise (SeedSep g sp cp) := by
  unfold select_seeds
  have hcand_scored : ∀ x ∈
      ((g.nodes.filter fun p =>
          decide (p.2.type ∈ SEED_ALLOWED_TYPES)).map Prod.fst).filterMap
        (fun nid => (seed_score g nid cp).map fun sc => (nid, sc)),
      SeedCand g x.1 := by
    intro x hx
    obtain ⟨nid, hnid, heq⟩ := List.mem_filterMap.mp hx
    obtain ⟨sc, _, hxeq⟩ := Option.map_eq_some'.mp heq
    obtain ⟨p, hpf, hpfst⟩ := List.mem_map.mp hnid
    have hpc := List.mem_filter.mp hpf
    have htype : p.2.type ∈ SEED_ALLOWED_TYPES := of_decide_eq_true hpc.2
    refine ⟨p.2.type, ?_, htype⟩
    rw [← hxeq, hpfst.symm]
    unfold node_type
    rw [lookupA_eq_of_mem_nodup hkeys hpc.1]
    rfl
  have hids : (((g.nodes.filter fun p =>
      decide (p.2.type ∈ SEED_ALLOWED_TYPES)).map Prod.fst).filterMap
        (fun nid => (seed_score g nid cp).map fun sc => (nid, sc)) |>.map
      Prod.fst).Nodup := by
    refine List.Sublist.nodup ?_ hkeys
    refine List.Sublist.trans (filterMap_pair_fst_sublist _ _) ?_
    exact List.Sublist.map Prod.fst (List.filter_sublist _)
  have hperm := List.mergeSort_perm
    (((g.nodes.filter fun p =>
        decide (p.2.type ∈ SEED_ALLOWED_TYPES)).map Prod.fst).filterMap
      (fun nid => (seed_score g nid cp).map fun sc => (nid, sc)))
    (fun a b => decide (b.2 ≤ a.2))
  refine selectWalk_aux g sp cp _ [] (by simp) List.Pairwise.nil (by simp)
    ?_ ?_ (by simp)
  · intro x hx
    exact hcand_scored x (hperm.mem_iff.mp hx)
  · exact ((hperm.map Prod.fst).nodup_iff).mpr hids

/-! ## Support lemmas for the remaining claims. -/

/-- Profiling never changes the member list. -/
theorem computeClusterProfiles_members {g : InteractionGraph} {c c' : Cluster}
    {params : ClusterParams}
    (h : computeClusterProfiles g c params = some c') : c'.members = c.members := by
  unfold computeClusterProfiles at h
  obtain ⟨pairs, _, hc'⟩ := Option.map_eq_some'.mp h
  rw [← hc']
  dsimp only
  split
  · rfl
  · rfl

/-- A member id missing from the node store makes the profiling lookup
(`g.nodes[nid]`) fail. -/
theorem lookupAll_none {g : InteractionGraph} {id : String}
    (hid : lookupA g.nodes id = none) :
    ∀ {ids : List String}, id ∈ ids → lookupAll g ids = none := by
  intro ids
  induction ids with
  | nil => intro h; cases h
  | cons x t ih =>
      intro hmem
      rcases List.mem_cons.mp hmem with rfl | hmem2
      · rw [lookupAll, hid]
      · rw [lookupAll]
        cases hx : lookupA g.nodes x with
        | none => rfl
        | some n => rw [ih hmem2]; rfl

theorem computeClusterProfiles_none {g : InteractionGraph} {c : Cluster}
    {params : ClusterParams} {id : String}
    (hid : lookupA g.nodes id = none) (hmem : id ∈ c.members) :
    computeClusterProfiles g c params = none := by
  unfold computeClusterProfiles
  rw [lookupAll_none hid hmem]
  rfl

/-- `lookupAll` succeeds exactly with the member/record pairing. -/
theorem lookupAll_some {g : InteractionGraph} :
    ∀ {ids : List String} {pairs : List (String × GraphNode)},
      lookupAll g ids = some pairs →
      pairs.map Prod.fst = ids ∧
        ∀ p ∈ pairs, lookupA g.nodes p.1 = some p.2 := by
  intro ids
  induction ids with
  | nil =>
      intro pairs h
      rw [lookupAll] at h
      have : pairs = [] := by simpa using h.symm
      subst this
      exact ⟨rfl, by intro p hp; cases hp⟩
  | cons x t ih =>
      intro pairs h
      rw [lookupAll] at h
      cases hx : lookupA g.nodes x with
      | none => rw [hx] at h; cases h
      | some n =>
          rw [hx] at h
          cases ht : lookupAll g t with
          | none => rw [ht] at h; cases h
          | some rest =>
              rw [ht] at h
              have hpairs : pairs = (x, n) :: rest := by simpa using h.symm
              subst hpairs
              have hrest := ih ht
              refine ⟨by simp [hrest.1], ?_⟩
              intro p hp
              rcases List.mem_cons.mp hp with rfl | hp2
              · exact hx
              · exact hrest.2 p hp2

/-- `lookupAll` succeeds when every id resolves. -/
theorem lookupAll_isSome {g : InteractionGraph} :
    ∀ {ids : List String},
      (∀ nid ∈ ids, (lookupA g.nodes nid).isSome) →
      ∃ pairs, lookupAll g ids = some pairs := by
  intro ids
  induction ids with
  | nil => intro _; exact ⟨[], rfl⟩
  | cons x t ih =>
      intro hall
      obtain ⟨n, hn⟩ := Option.isSome_iff_exists.mp (hall x (List.mem_cons_self _ _))
      obtain ⟨rest, hrest⟩ := ih fun nid hnid => hall nid (List.mem_cons_of_mem _ hnid)
      refine ⟨(x, n) :: rest, ?_⟩
      rw [lookupAll, hn, hrest]
      rfl

/-- The inner scan of a merge pass removes exactly one cluster. -/
theorem extractFirstMergeable_length {g : InteractionGraph}
    {params : ClusterParams} {c : Cluster} :
    ∀ {l : List Cluster} {d : Cluster} {t : List Cluster},
      extractFirstMergeable g params c l = some (d, t) →
      t.length + 1 = l.length := by
  intro l
  induction l with
  | nil => intro d t h; cases h
  | cons e rest ih =>
      intro d t h
      unfold extractFirstMergeable at h
      by_cases hm : should_merge g c e params = true
      · rw [if_pos hm] at h
        have hdt : d = e ∧ t = rest := by
          simpa using h.symm
        rw [hdt.2]
        simp
      · rw [if_neg hm] at h
        cases hrec : extractFirstMergeable g params c rest with
        | none => rw [hrec] at h; cases h
        | some pr =>
            rw [hrec] at h
            cases pr with
            | mk x trest =>
                have hpr : d = x ∧ t = e :: trest := by simpa using h.symm
                have := ih hrec
                rw [hpr.2]
                simp only [List.length_cons]
                omega

/-- A merge pass never grows the list, shrinks it strictly when it merged,
and returns it unchanged when it did not. -/
theorem mergePassF_spec {g : InteractionGraph} {params : ClusterParams} :
    ∀ {fuel : ℕ} {l out : List Cluster} {m : Bool},
      l.length < fuel →
      mergePassF g params fuel l = some (out, m) →
      out.length ≤ l.length ∧ (m = true → out.length < l.length) ∧
        (m = false → out = l) := by
  intro fuel
  induction fuel with
  | zero => intro l out m h; omega
  | succ fuel ih =>
      intro l out m hlen h
      cases l with
      | nil =>
          unfold mergePassF at h
          have hout : out = [] ∧ m = false := by simpa using h.symm
          rw [hout.1]
          refine ⟨le_refl _, ?_, fun _ => rfl⟩
          intro hm
          rw [hout.2] at hm
          cases hm
      | cons c rest =>
          unfold mergePassF at h
          cases hext : extractFirstMergeable g params c rest with
          | some pr =>
              rw [hext] at h
              cases pr with
              | mk cj rest2 =>
                  dsimp only at h
                  have hlen2 : rest2.length + 1 = rest.length :=
                    extractFirstMergeable_length hext
                  cases hcm : computeMerged g params c cj with
                  | none =>
                      rw [hcm] at h
                      simp only [Option.none_bind] at h
                      cases h
                  | some merged =>
                      rw [hcm] at h
                      simp only [Option.some_bind] at h
                      cases hrec : mergePassF g params fuel rest2 with
                      | none =>
                          rw [hrec] at h
                          simp only [Option.map_none'] at h
                          cases h
                      | some pr2 =>
                          rw [hrec] at h
                          cases pr2 with
                          | mk out2 m2 =>
                              simp only [Option.map_some'] at h
                              have hout : out = merged :: out2 ∧ m = true := by
                                simpa using h.symm
                              have hlen2 : rest2.length < fuel := by
                                simp at hlen
                                omega
                              have hrec2 := ih (l := rest2) hlen2 hrec
                              rw [hout.1]
                              simp only [List.length_cons]
                              refine ⟨by omega, fun _ => by omega, fun hm => ?_⟩
                              rw [hout.2] at hm
                              cases hm
          | none =>
              rw [hext] at h
              dsimp only at h
              cases hrec : mergePassF g params fuel rest with
              | none =>
                  rw [hrec] at h
                  simp only [Option.map_none'] at h
                  cases h
              | some pr2 =>
                  rw [hrec] at h
                  cases pr2 with
                  | mk out2 m2 =>
                      simp only [Option.map_some'] at h
                      have hout : out = c :: out2 ∧ m = m2 := by
                        simpa using h.symm
                      have hlen2 : rest.length < fuel := by
                        simp at hlen
                        omega
                      have hrec2 := ih (l := rest) hlen2 hrec
                      rw [hout.1]
                      simp only [List.length_cons]
                      refine ⟨by omega, fun hm => ?_, fun hm => ?_⟩
                      · rw [hout.2] at hm
                        have := hrec2.2.1 hm
                        omega
                      · rw [hout.2] at hm
                        rw [hrec2.2.2 hm]

/-- The fixed-point loop stops exactly at a pass that merges nothing. -/
theorem mergeLoop_fix {g : InteractionGraph} {params : ClusterParams} :
    ∀ {fuel : ℕ} {l res : List Cluster},
      l.length < fuel →
      mergeLoop g params fuel l = some res →
      mergePass g params res = some (res, false) := by
  intro fuel
  induction fuel with
  | zero => intro l res h; omega
  | succ fuel ih =>
      intro l res hlen h
      unfold mergeLoop at h
      cases hp : mergePass g params l with
      | none => rw [hp] at h; cases h
      | some pr =>
          rw [hp] at h
          cases pr with
          | mk out m =>
              have hspec := mergePassF_spec (Nat.lt_succ_self _) hp
              cases m with
              | true =>
                  simp only at h
                  have hlt := hspec.2.1 rfl
                  exact ih (by omega) h
              | false =>
                  simp only at h
                  have hres : res = out := by simpa using h.symm
                  have hout : out = l := hspec.2.2 rfl
                  rw [hout] at hp
                  rw [hres, hout]
                  exact hp

/-! ## The claim-level hop relation for seed separation (C4). -/

/-- One hop as the spec states it: an edge of weight at least `edge_min`
whose two endpoints are both of seed-eligible type. -/
def seedHopStep (g : InteractionGraph) (em : ℚ) (u w : String) : Prop :=
  SeedCand g u ∧ SeedCand g w ∧ ∃ e ∈ neighbors g u, em ≤ e.weight ∧ e.dst = w

/-- Hop distance at most `D` along spec-level seed edges. -/
def SeedHopReachLe (g : InteractionGraph) (em : ℚ) (a v : String) (D : ℕ) :
    Prop :=
  ReachLe (seedHopStep g em) a v D

theorem seedHopStep_imp_stepRel {g : InteractionGraph} {em : ℚ}
    {u w : String} (h : seedHopStep g em u w) :
    stepRel g (seedStepOk g em) u w := by
  obtain ⟨_, ⟨nt, hnt, hmem⟩, e, he, hw, hdst⟩ := h
  refine ⟨e, he, ?_, hdst⟩
  have hm : (match node_type g e.dst with
      | some nt => decide (nt ∈ SEED_ALLOWED_TYPES)
      | none => false) = true := by
    rw [hdst, hnt]
    exact decide_eq_true hmem
  exact Bool.and_eq_true_iff.mpr ⟨decide_eq_true hw, hm⟩

/-- Symmetric adjacency: every stored record has a reverse record of equal
weight (true of every graph built exclusively through `add_edge`). -/
def SymmAdj (g : InteractionGraph) : Prop :=
  ∀ u, ∀ e ∈ neighbors g u,
    ∃ e2, e2 ∈ neighbors g e.dst ∧ e2.dst = u ∧ e2.weight = e.weight

theorem seedHopStep_symm {g : InteractionGraph} {em : ℚ} (hs : SymmAdj g)
    {u w : String} (h : seedHopStep g em u w) : seedHopStep g em w u := by
  obtain ⟨hu, hw, e, he, hwt, hdst⟩ := h
  obtain ⟨e2, he2, he2dst, he2w⟩ := hs u e he
  rw [hdst] at he2
  exact ⟨hw, hu, e2, he2, by rw [he2w]; exact hwt, he2dst⟩

/-! ## The spec-level semantic core score (C6), for comparison with the
code's core ranking. -/

/-- Modelled from the spec: the glue penalty fraction of the semantic core
score ("a small fraction (e.g. 0.4)"). -/
def specGluePenalty : ℚ := 0.4

/-- Modelled from the spec: "semantic core score per CONCEPT/MOTIF/TENSION
member: (number of distinct supporting corpora × 2 + node weight) ×
gluePenalty, where gluePenalty is a small fraction if the member's label is
a configured glue/stop term, else 1.0". -/
def specSemanticCoreScore (g : InteractionGraph) (nid : String) : ℚ :=
  match lookupA g.nodes nid with
  | none => 0
  | some n =>
      (((dedupe (n.corpus_support.map Prod.fst)).length : ℚ) * 2 + n.weight) *
        (if spineLabel nid ∈ GLUE_TERMS then specGluePenalty else 1)

/-- The weight-descending comparison the core ranking sorts by. -/
def coreLe (a b : String × GraphNode) : Bool :=
  decide (b.2.weight ≤ a.2.weight)

theorem coreLe_trans (a b c : String × GraphNode) (h1 : coreLe a b = true)
    (h2 : coreLe b c = true) : coreLe a c = true :=
  decide_eq_true (le_trans (of_decide_eq_true h2) (of_decide_eq_true h1))

theorem coreLe_total (a b : String × GraphNode) :
    (coreLe a b || coreLe b a) = true := by
  rcases le_total a.2.weight b.2.weight with h | h
  · exact Bool.or_eq_true_iff.mpr (Or.inr (decide_eq_true h))
  · exact Bool.or_eq_true_iff.mpr (Or.inl (decide_eq_true h))

/-- Membership filter used to count core-eligible members of a cluster. -/
def coreEligible (g : InteractionGraph) (nid : String) : Bool :=
  match lookupA g.nodes nid with
  | some n => decide (n.type ∈ [NodeType.CONCEPT, .MOTIF, .TENSION])
  | none => false

/-- What the code's core really is: the top `core_size` members by raw node
weight among the CONCEPT/MOTIF/TENSION members. -/
theorem core_topK {g : InteractionGraph} {c c' : Cluster}
    {params : ClusterParams}
    (h : computeClusterProfiles g c params = some c') :
    (∀ nid ∈ c'.core, nid ∈ c.members ∧
      ∃ n, lookupA g.nodes nid = some n ∧
        n.type ∈ [NodeType.CONCEPT, .MOTIF, .TENSION]) ∧
    c'.core.length =
      min params.core_size (c.members.filter (coreEligible g)).length ∧
    (∀ x ∈ c'.core, ∀ y ∈ c.members, y ∉ c'.core →
      ∀ nx ny, lookupA g.nodes x = some nx → lookupA g.nodes y = some ny →
        ny.type ∈ [NodeType.CONCEPT, .MOTIF, .TENSION] →
        ny.weight ≤ nx.weight) := by
  cases hall : lookupAll g c.members with
  | none =>
      unfold computeClusterProfiles at h
      rw [hall] at h
      cases h
  | some pairs =>
  obtain ⟨hfst, hlook⟩ := lookupAll_some hall
  have hcore : c'.core =
      (((pairs.filter fun p =>
          decide (p.2.type ∈ [NodeType.CONCEPT, .MOTIF, .TENSION])).mergeSort
            coreLe).take params.core_size).map Prod.fst := by
    unfold computeClusterProfiles at h
    rw [hall] at h
    simp only [Option.map_some', Option.some.injEq] at h
    rw [← h]
    split
    · rfl
    · rfl
  have hperm := List.mergeSort_perm
    (pairs.filter fun p =>
      decide (p.2.type ∈ [NodeType.CONCEPT, .MOTIF, .TENSION])) coreLe
  refine ⟨?_, ?_, ?_⟩
  · intro nid hnid
    rw [hcore] at hnid
    obtain ⟨p, hp_take, hp_fst⟩ := List.mem_map.mp hnid
    have hp_sorted := List.mem_of_mem_take hp_take
    have hp_filter := hperm.mem_iff.mp hp_sorted
    have hp := List.mem_filter.mp hp_filter
    refine ⟨?_, p.2, hp_fst ▸ hlook p hp.1, of_decide_eq_true hp.2⟩
    rw [← hp_fst, ← hfst]
    exact List.mem_map.mpr ⟨p, hp.1, rfl⟩
  · rw [hcore]
    rw [List.length_map, List.length_take, List.length_mergeSort]
    congr 1
    have hfm : c.members.filter (coreEligible g) =
        ((pairs.filter fun p => coreEligible g p.1).map Prod.fst) := by
      rw [← hfst, List.filter_map]
      rfl
    rw [hfm, List.length_map]
    congr 1
    refine List.filter_congr fun p hp => ?_
    unfold coreEligible
    rw [hlook p hp]
  · intro x hx y hy hyc nx ny hnx hny hnyt
    rw [hcore] at hx hyc
    obtain ⟨px, hpx_take, hpx_fst⟩ := List.mem_map.mp hx
    have hnx2 : nx = px.2 := by
      have := hlook px (List.mem_filter.mp
        (hperm.mem_iff.mp (List.mem_of_mem_take hpx_take))).1
      rw [hpx_fst] at this
      rw [this] at hnx
      exact (Option.some.inj hnx).symm
    obtain ⟨py, hpy_mem, hpy_fst⟩ := by
      rw [← hfst] at hy
      exact List.mem_map.mp hy
    have hny2 : ny = py.2 := by
      have := hlook py hpy_mem
      rw [hpy_fst] at this
      rw [this] at hny
      exact (Option.some.inj hny).symm
    have hpy_filter : py ∈ pairs.filter fun p =>
        decide (p.2.type ∈ [NodeType.CONCEPT, .MOTIF, .TENSION]) :=
      List.mem_filter.mpr ⟨hpy_mem, decide_eq_true (hny2 ▸ hnyt)⟩
    have hpy_sorted := hperm.mem_iff.mpr hpy_filter
    have hsplit := List.take_append_drop params.core_size
      ((pairs.filter fun p =>
        decide (p.2.type ∈ [NodeType.CONCEPT, .MOTIF, .TENSION])).mergeSort
          coreLe)
    have hpy_drop : py ∈ ((pairs.filter fun p =>
        decide (p.2.type ∈ [NodeType.CONCEPT, .MOTIF, .TENSION])).mergeSort
          coreLe).drop params.core_size := by
      rcases List.mem_append.mp (hsplit ▸ hpy_sorted) with hmem | hmem
      · exact absurd (List.mem_map.mpr ⟨py, hmem, hpy_fst⟩) hyc
      · exact hmem
    have hsorted := List.sorted_mergeSort coreLe_trans coreLe_total
      (pairs.filter fun p =>
        decide (p.2.type ∈ [NodeType.CONCEPT, .MOTIF, .TENSION]))
    rw [← hsplit] at hsorted
    have hpw := (List.pairwise_append.mp hsorted).2.2
    have hle := hpw px hpx_take py hpy_drop
    rw [hnx2, hny2]
    exact of_decide_eq_true hle

/-! ## Totality and shape of build_spines on well-formed clusters (C10). -/

/-- Node lookups build_spines performs on a cluster: core members (invariant
and delta spines) and in-members tension nodes (tension spine). -/
def SpineClusterWF (g : InteractionGraph) (c : Cluster) : Prop :=
  (∀ nid ∈ c.core, (lookupA g.nodes nid).isSome) ∧
  (∀ nid ∈ c.tension_nodes, nid ∈ c.members → (lookupA g.nodes nid).isSome)

def SpineWF (g : InteractionGraph) (clusters : List Cluster) : Prop :=
  ∀ c ∈ clusters, SpineClusterWF g c

theorem foldOption_some {α β : Type} {f : β → α → Option β} :
    ∀ {l : List α}, (∀ a ∈ l, ∀ b, ∃ b2, f b a = some b2) →
      ∀ b, ∃ r, foldOption f b l = some r := by
  intro l
  induction l with
  | nil => intro _ b; exact ⟨b, rfl⟩
  | cons a t ih =>
      intro hall b
      obtain ⟨b2, hb2⟩ := hall a (List.mem_cons_self _ _) b
      obtain ⟨r, hr⟩ := ih (fun x hx => hall x (List.mem_cons_of_mem _ hx)) b2
      refine ⟨r, ?_⟩
      rw [foldOption, hb2]
      exact hr

theorem invStep_some {g : InteractionGraph} {qreg : List String}
    {m : MCurrent} {c : Cluster}
    (hc : ∀ nid ∈ c.core, (lookupA g.nodes nid).isSome) (st : InvState) :
    ∃ st2, invStep g qreg m st c = some st2 := by
  obtain ⟨pairs, hp⟩ := lookupAll_isSome hc
  exact ⟨_, by unfold invStep; rw [hp]; rfl⟩

theorem tenStep_some {g : InteractionGraph} {qreg : List String}
    {m : MCurrent} {c : Cluster}
    (hc : ∀ nid ∈ c.tension_nodes, nid ∈ c.members →
      (lookupA g.nodes nid).isSome) (st : TenState) :
    ∃ st2, tenStep g qreg m st c = some st2 := by
  have hall : ∀ nid ∈ c.tension_nodes.filter
      (fun nid => decide (nid ∈ c.members)), (lookupA g.nodes nid).isSome := by
    intro nid hnid
    have := List.mem_filter.mp hnid
    exact hc nid this.1 (of_decide_eq_true this.2)
  obtain ⟨pairs, hp⟩ := lookupAll_isSome hall
  exact ⟨_, by unfold tenStep; rw [hp]; rfl⟩

theorem deltaStep_some {g : InteractionGraph} {qreg : List String}
    {m : MCurrent} {c : Cluster}
    (hc : ∀ nid ∈ c.core, (lookupA g.nodes nid).isSome) (st : InvState) :
    ∃ st2, deltaStep g qreg m st c = some st2 := by
  obtain ⟨pairs, hp⟩ := lookupAll_isSome hc
  exact ⟨_, by unfold deltaStep; rw [hp]; rfl⟩

theorem spine_invariant_some {g : InteractionGraph} {hits : List Cluster}
    {qreg : List String} {m : MCurrent}
    (h : ∀ c ∈ hits, SpineClusterWF g c) :
    ∃ s, spine_invariant g hits qreg m = some s ∧ s.spine_type = "invariant" := by
  obtain ⟨st, hst⟩ := foldOption_some
    (l := hits.take 2) (f := invStep g qreg m)
    (fun c hc st => invStep_some
      (h c (List.mem_of_mem_take hc)).1 st) ⟨[], [], 0, 0, 0⟩
  refine ⟨_, by unfold spine_invariant; rw [hst]; rfl, rfl⟩

theorem spine_tension_some {g : InteractionGraph} {hits : List Cluster}
    {qreg : List String} {m : MCurrent}
    (h : ∀ c ∈ hits, SpineClusterWF g c) :
    ∃ s, spine_tension g hits qreg m = some s ∧ s.spine_type = "tension" := by
  obtain ⟨st, hst⟩ := foldOption_some
    (l := hits.take 2) (f := tenStep g qreg m)
    (fun c hc st => tenStep_some
      (h c (List.mem_of_mem_take hc)).2 st) ⟨[], [], 0, 0, 0⟩
  refine ⟨_, by unfold spine_tension; rw [hst]; rfl, rfl⟩

theorem deltaTarget_mem (primary : Cluster) :
    ∀ others : List Cluster,
      deltaTarget primary others = primary ∨
        deltaTarget primary others ∈ others := by
  intro others
  cases others with
  | nil => exact Or.inl rfl
  | cons o os =>
      right
      unfold deltaTarget
      have haux : ∀ (l : List Cluster) (best : Cluster),
          best ∈ o :: os →
          (∀ x ∈ l, x ∈ o :: os) →
          l.foldl (fun best c =>
            if |deltaDominance best - deltaDominance primary| <
                |deltaDominance c - deltaDominance primary| then c else best)
            best ∈ o :: os := by
        intro l
        induction l with
        | nil => intro best hb _; exact hb
        | cons x t ih =>
            intro best hb hall
            rw [List.foldl_cons]
            by_cases hcmp : |deltaDominance best - deltaDominance primary| <
                |deltaDominance x - deltaDominance primary|
            · rw [if_pos hcmp]
              exact ih x (hall x (List.mem_cons_self _ _))
                (fun y hy => hall y (List.mem_cons_of_mem _ hy))
            · rw [if_neg hcmp]
              exact ih best hb (fun y hy => hall y (List.mem_cons_of_mem _ hy))
      exact haux os o (List.mem_cons_self _ _)
        (fun y hy => List.mem_cons_of_mem _ hy)

theorem spine_delta_fold_some {g : InteractionGraph} {qreg : List String}
    {m : MCurrent} {primary target : Cluster}
    (hprim : SpineClusterWF g primary) (htarget : SpineClusterWF g target) :
    ∃ st, foldOption (deltaStep g qreg m) ⟨[], [], 0, 0, 0⟩ [primary, target] =
      some st := by
  refine foldOption_some ?_ _
  intro c hc st
  rcases List.mem_cons.mp hc with rfl | hc2
  · exact deltaStep_some hprim.1 st
  · rcases List.mem_singleton.mp hc2 with rfl
    exact deltaStep_some htarget.1 st

theorem spine_delta_some {g : InteractionGraph} {all_clusters : List Cluster}
    {hits : List Cluster} {qreg : List String} {m : MCurrent}
    (hall : ∀ c ∈ all_clusters, SpineClusterWF g c)
    (hhits : ∀ c ∈ hits, SpineClusterWF g c) :
    ∃ s, spine_delta g all_clusters hits qreg m = some s ∧
      s.spine_type = "delta" := by
  cases all_clusters with
  | nil => exact ⟨_, rfl, rfl⟩
  | cons a0 rest0 =>
      cases hits with
      | nil =>
          have hprim : SpineClusterWF g a0 := hall a0 (List.mem_cons_self _ _)
          have htarget : SpineClusterWF g
              (deltaTarget a0 ((a0 :: rest0).filter fun c =>
                decide (¬ c.cluster_id = a0.cluster_id))) := by
            rcases deltaTarget_mem a0 ((a0 :: rest0).filter fun c =>
                decide (¬ c.cluster_id = a0.cluster_id)) with heq | hmem
            · rw [heq]; exact hprim
            · exact hall _ (List.mem_filter.mp hmem).1
          obtain ⟨st, hst⟩ := @spine_delta_fold_some g qreg m _ _
            hprim htarget
          exact ⟨_, by unfold spine_delta; dsimp only; rw [hst]; rfl, rfl⟩
      | cons h t =>
          have hprim : SpineClusterWF g h := hhits h (List.mem_cons_self _ _)
          have htarget : SpineClusterWF g
              (deltaTarget h ((a0 :: rest0).filter fun c =>
                decide (¬ c.cluster_id = h.cluster_id))) := by
            rcases deltaTarget_mem h ((a0 :: rest0).filter fun c =>
                decide (¬ c.cluster_id = h.cluster_id)) with heq | hmem
            · rw [heq]; exact hprim
            · exact hall _ (List.mem_filter.mp hmem).1
          obtain ⟨st, hst⟩ := @spine_delta_fold_some g qreg m _ _
            hprim htarget
          exact ⟨_, by unfold spine_delta; dsimp only; rw [hst]; rfl, rfl⟩

def spineLe (a b : Spine) : Bool := decide (b.score ≤ a.score)

theorem spineLe_trans (a b c : Spine) (h1 : spineLe a b = true)
    (h2 : spineLe b c = true) : spineLe a c = true :=
  decide_eq_true (le_trans (of_decide_eq_true h2) (of_decide_eq_true h1))

theorem spineLe_total (a b : Spine) : (spineLe a b || spineLe b a) = true := by
  rcases le_total a.score b.score with h | h
  · exact Bool.or_eq_true_iff.mpr (Or.inr (decide_eq_true h))
  · exact Bool.or_eq_true_iff.mpr (Or.inl (decide_eq_true h))

/-- On clusters whose spine lookups all resolve, build_spines returns
exactly three spines — one of each type — sorted by non-increasing score. -/
theorem build_spines_shape (g : InteractionGraph) (clusters : List Cluster)
    (question_terms : List String) (m : MCurrent) (params : SpineParams)
    (hwf : SpineWF g clusters) :
    ∃ out, build_spines g clusters question_terms m params = some out ∧
      out.length = 3 ∧
      (out.map Spine.spine_type).Perm ["invariant", "tension", "delta"] ∧
      out.Pairwise (fun a b => b.score ≤ a.score) := by
  have hCH : ∀ c ∈ (if (clusters.filter fun c =>
      decide ((c.members.filter fun x =>
        decide (x ∈ question_region g question_terms)) ≠ [])) = [] then
        (clusters.mergeSort fun a b =>
          decide ((b.support_profile.map Prod.snd).sum ≤
            (a.support_profile.map Prod.snd).sum)).take 3
      else clusters.filter fun c =>
        decide ((c.members.filter fun x =>
          decide (x ∈ question_region g question_terms)) ≠ [])),
      SpineClusterWF g c := by
    intro c hc
    by_cases h0 : (clusters.filter fun c =>
        decide ((c.members.filter fun x =>
          decide (x ∈ question_region g question_terms)) ≠ [])) = []
    · rw [if_pos h0] at hc
      exact hwf c ((List.mergeSort_perm clusters _).mem_iff.mp
        (List.mem_of_mem_take hc))
    · rw [if_neg h0] at hc
      exact hwf c (List.mem_filter.mp hc).1
  obtain ⟨inv, hinv, hti⟩ :=
    @spine_invariant_some g _ (question_region g question_terms) m hCH
  obtain ⟨ten, hten, htt⟩ :=
    @spine_tension_some g _ (question_region g question_terms) m hCH
  obtain ⟨delt, hdelt, htd⟩ :=
    @spine_delta_some g _ _ (question_region g question_terms) m hwf hCH
  refine ⟨[inv, ten, delt].mergeSort spineLe, ?_, ?_, ?_, ?_⟩
  · unfold build_spines
    dsimp only
    rw [hinv, Option.some_bind, hten, Option.some_bind, hdelt,
      Option.map_some']
    rfl
  · rw [List.length_mergeSort]
    rfl
  · have hperm := (List.mergeSort_perm [inv, ten, delt] spineLe).map
      Spine.spine_type
    have : [inv, ten, delt].map Spine.spine_type =
        ["invariant", "tension", "delta"] := by
      simp [hti, htt, htd]
    rw [this] at hperm
    exact hperm
  · have hs := List.sorted_mergeSort spineLe_trans spineLe_total
      [inv, ten, delt]
    exact hs.imp fun h => of_decide_eq_true h

/-! # The claims

Concrete instances and the theorems settling the specification claims. -/

/-! ## C1 — the momentum cap on node merge. -/

/-- The spec's own end-to-end scenario (§8): corpus A contributes concept
`love` with weight 5 at entropy 0.3. -/
def essA : SemanticEssence := ⟨"A", [], [⟨"love", 5⟩], 0.3, []⟩

/-- Corpus B contributes concept `love` with weight 7 at entropy 0.8. -/
def essB : SemanticEssence := ⟨"B", [], [⟨"love", 7⟩], 0.8, []⟩

def gLove : InteractionGraph :=
  add_essence_to_graph (add_essence_to_graph emptyGraph essA 0.55) essB 0.55

theorem appClove : "C:" ++ "love" = "C:love" := rfl

/-- C1: the claim says a node's stored weight never exceeds the momentum cap
of 10 because `ensure_node` applies the cap after merging. The code applies
the cap only to each incoming contribution, never to the merged sum: after
ingesting concept `love` with weights 5 and 7 from two corpora the stored
weight is 12, strictly above the cap (the spec's §8 scenario expects
`min(12, 10) = 10`). -/
theorem C1_merge_exceeds_cap :
    (lookupA gLove.nodes ("C:love")).map GraphNode.weight = some 12 ∧
    (lookupA gLove.nodes ("C:love")).map GraphNode.corpus_support =
      some [("A", 5), ("B", 7)] ∧
    cap_momentum 12 10 < 12 := by
  have h5 : (5:ℚ) ≤ 10 := by norm_num
  have h7 : (7:ℚ) ≤ 10 := by norm_num
  have hadd : (5:ℚ) + 7 = 12 := by norm_num
  refine ⟨?_, ?_, ?_⟩
  · simp [gLove, essA, essB, add_essence_to_graph, ensure_node, emptyGraph,
      conceptNodeOf, termNodeOf, lookupA, setA, cap_momentum, min_def,
      h5, h7, hadd, add_edge, appendAdj, appClove]
  · simp [gLove, essA, essB, add_essence_to_graph, ensure_node, emptyGraph,
      conceptNodeOf, termNodeOf, lookupA, setA, cap_momentum, min_def,
      h5, h7, hadd, add_edge, appendAdj, appClove]
  · unfold cap_momentum
    rw [min_def]
    norm_num

/-! ## C5 — aggregation of repeated concept ids. -/

/-- An essence whose concept id `x` occurs twice, with weights 1 and 2. -/
def essDup : SemanticEssence := ⟨"A", [], [⟨"x", 1⟩, ⟨"x", 2⟩], 0.5, []⟩

def gDup : InteractionGraph := add_essence_to_graph emptyGraph essDup 0.55

theorem appCx : "C:" ++ "x" = "C:x" := rfl

/-- C5: the claim says a concept id occurring k times contributes its
aggregated (summed, then capped) weight exactly once. The builder computes
the aggregate but then loops over every occurrence, calling `ensure_node`
once per occurrence with the aggregated weight: id `x` with weights 1 and 2
(aggregate `cap(1+2) = 3`) ends with stored weight 6 and per-corpus support
6 — the aggregate contributed twice, contradicting the code's own
"aggregate once per concept_id" comment. -/
theorem C5_duplicate_concept_double_counted :
    (lookupA gDup.nodes ("C:x")).map GraphNode.weight = some 6 ∧
    (lookupA gDup.nodes ("C:x")).map GraphNode.corpus_support =
      some [("A", 6)] ∧
    cap_momentum (1 + 2) 10 = 3 ∧ (6:ℚ) ≠ 3 := by
  have h3 : (3:ℚ) ≤ 10 := by norm_num
  have h12 : (1:ℚ) + 2 = 3 := by norm_num
  have h33 : (3:ℚ) + 3 = 6 := by norm_num
  refine ⟨?_, ?_, ?_, by norm_num⟩
  · simp [gDup, essDup, add_essence_to_graph, ensure_node, emptyGraph,
      conceptNodeOf, termNodeOf, lookupA, setA, cap_momentum, min_def,
      h3, h12, h33, add_edge, appendAdj, appCx]
  · simp [gDup, essDup, add_essence_to_graph, ensure_node, emptyGraph,
      conceptNodeOf, termNodeOf, lookupA, setA, cap_momentum, min_def,
      h3, h12, h33, add_edge, appendAdj, appCx]
  · unfold cap_momentum
    rw [h12, min_def]
    norm_num

/-! ## C7 — tolerance of unknown node ids. -/

def gC7 : InteractionGraph :=
  ⟨[("n", ⟨"n", .CONCEPT, 1, [], [], none⟩)], [("n", [])], []⟩

def cl7 : Cluster := mkClusterRaw ("c") ("n") 0 ["ghost"]

def p7 : ClusterParams := ⟨0.55, 0.6, 7, 2⟩

/-- C7: the claim says every engine operation treats an absent id as "no
match" without failing — in particular that cluster profiling completes
without raising. The accessors do tolerate unknown ids, but profiling
indexes the node store directly (`g.nodes[nid]`) and raises `KeyError`
(modelled as `none`) on a cluster holding the unknown member `ghost`. -/
theorem C7_profiling_fails_on_unknown_member :
    node_type gC7 ("ghost") = none ∧ neighbors gC7 ("ghost") = [] ∧
    computeClusterProfiles gC7 cl7 p7 = none := by
  refine ⟨by simp [node_type, lookupA, gC7], by simp [neighbors, lookupA, gC7], ?_⟩
  simp [computeClusterProfiles, lookupAll, lookupA, cl7, gC7, mkClusterRaw]

/-- C7 (amended): an id absent from the node store is treated as "no match"
by the accessors and by traversal — `node_type` yields `none`, `neighbors`
of an id absent from the adjacency store yields `[]`, and cluster growth
never adds the id as a non-seed member — but seed scoring and cluster
profiling index the node store directly and fail (`KeyError`, modelled as
`none`) instead of completing. -/
theorem C7_unknown_id_accessors_tolerate_profiles_fail
    (g : InteractionGraph) (id : String)
    (hid : lookupA g.nodes id = none) :
    node_type g id = none ∧
    (lookupA g.adj id = none → neighbors g id = []) ∧
    (∀ em D seed, id ≠ seed → id ∉ grow_members g em D seed) ∧
    (∀ cp, seed_score g id cp = none) ∧
    (∀ c params, id ∈ c.members → computeClusterProfiles g c params = none) := by
  refine ⟨?_, ?_, ?_, ?_, ?_⟩
  · unfold node_type
    rw [hid]
    rfl
  · intro ha
    unfold neighbors
    rw [ha]
    rfl
  · intro em D seed hne hmem
    rw [grow_members_iff_RSet] at hmem
    obtain ⟨d, _, hp⟩ := RSet_reachLe hmem
    cases hp with
    | base => exact hne rfl
    | step _ hs =>
        obtain ⟨e, _, hok, hdst⟩ := hs
        have := growOk_dst_known g em e hok
        rw [hdst, hid] at this
        cases this
  · intro cp
    unfold seed_score
    rw [hid]
    rfl
  · intro c params hmem
    exact computeClusterProfiles_none hid hmem

/-- Witness for the amended C7 theorem at the concrete graph `gC7` and the
unknown id `ghost`. -/
theorem C7_witness :
    node_type gC7 ("ghost") = none ∧
    (lookupA gC7.adj ("ghost") = none → neighbors gC7 ("ghost") = []) ∧
    (∀ em D seed, ("ghost") ≠ seed → ("ghost") ∉ grow_members gC7 em D seed) ∧
    (∀ cp, seed_score gC7 ("ghost") cp = none) ∧
    (∀ c params, ("ghost") ∈ c.members →
      computeClusterProfiles gC7 c params = none) :=
  C7_unknown_id_accessors_tolerate_profiles_fail gC7 ("ghost")
    (by simp [lookupA, gC7])

/-! ## C8 — choose_spines_for_output. -/

def s0spine : Spine := ⟨"invariant", [], [], 1, []⟩

def s1spine : Spine := ⟨"tension", [], [], 0, []⟩

/-- C8: the claim says the chooser returns at most `maxSpinesShown` entries
for every `maxSpinesShown`. With `maxSpinesShown = 0` and a non-empty spine
list the code still returns the primary — one entry, more than zero. -/
theorem C8_limit_zero_still_returns_primary :
    choose_spines_for_output [s0spine] ⟨0⟩ = [s0spine] ∧
    ¬ ((choose_spines_for_output [s0spine] ⟨0⟩).length ≤ 0) := by
  constructor
  · simp [choose_spines_for_output]
  · simp [choose_spines_for_output]

/-- C8 (amended): on a non-empty score-sorted list the chooser returns the
rank-1 spine as primary, adds as secondary only the first subsequent spine
of a different type and only when `maxSpinesShown ≥ 2`, never returns two
spines of the same type, and returns at most `max 1 maxSpinesShown` entries
— the primary is returned even when `maxSpinesShown ≤ 1` (or 0). -/
theorem C8_chooser_shape (params : SpineParams) (primary : Spine)
    (rest : List Spine) :
    (choose_spines_for_output (primary :: rest) params).head? = some primary ∧
    (choose_spines_for_output (primary :: rest) params).length ≤
      max 1 params.max_spines_shown ∧
    (choose_spines_for_output (primary :: rest) params).Pairwise
      (fun a b => a.spine_type ≠ b.spine_type) ∧
    (∀ s ∈ (choose_spines_for_output (primary :: rest) params).tail,
      2 ≤ params.max_spines_shown ∧
        rest.find? (fun r => decide (¬ r.spine_type = primary.spine_type)) =
          some s) ∧
    ((params.max_spines_shown ≤ 1 ∨
        ∀ r ∈ rest, r.spine_type = primary.spine_type) →
      choose_spines_for_output (primary :: rest) params = [primary]) := by
  unfold choose_spines_for_output
  dsimp only
  cases hf : rest.find? (fun r => decide (¬ r.spine_type = primary.spine_type)) with
  | none =>
      refine ⟨rfl, by simp, by simp, by simp, fun _ => rfl⟩
  | some sec =>
      have hsec_ne : sec.spine_type ≠ primary.spine_type := by
        have h := List.find?_some hf
        simpa using h
      have hsec_mem : sec ∈ rest := List.mem_of_find?_eq_some hf
      dsimp only
      by_cases hm : 2 ≤ params.max_spines_shown
      · rw [if_pos hm]
        refine ⟨rfl, ?_, ?_, ?_, ?_⟩
        · have : max 1 params.max_spines_shown = params.max_spines_shown := by
            omega
          rw [this]
          simpa using hm
        · exact List.pairwise_pair.mpr fun h => hsec_ne h.symm
        · intro s hs
          rcases List.mem_singleton.mp hs with rfl
          exact ⟨hm, rfl⟩
        · rintro (h | h)
          · omega
          · exact absurd (h sec hsec_mem) hsec_ne
      · rw [if_neg hm]
        refine ⟨rfl, by simp, by simp, by simp, fun _ => rfl⟩

/-- Witness for the amended C8 theorem: with limit 2 and a second spine of a
different type, the chooser returns the primary/secondary pair. -/
theorem C8_witness :
    (choose_spines_for_output (s0spine :: [s1spine]) ⟨2⟩).head? =
      some s0spine ∧
    (choose_spines_for_output (s0spine :: [s1spine]) ⟨2⟩).length ≤
      max 1 (2:ℕ) ∧
    (choose_spines_for_output (s0spine :: [s1spine]) ⟨2⟩).Pairwise
      (fun a b => a.spine_type ≠ b.spine_type) ∧
    (∀ s ∈ (choose_spines_for_output (s0spine :: [s1spine]) ⟨2⟩).tail,
      2 ≤ (2:ℕ) ∧
        [s1spine].find?
          (fun r => decide (¬ r.spine_type = s0spine.spine_type)) = some s) ∧
    (((2:ℕ) ≤ 1 ∨ ∀ r ∈ [s1spine], r.spine_type = s0spine.spine_type) →
      choose_spines_for_output (s0spine :: [s1spine]) ⟨2⟩ = [s0spine]) :=
  C8_chooser_shape ⟨2⟩ s0spine [s1spine]

/-- A one-node graph with one corpus-supported CONCEPT. -/
def gC3 : InteractionGraph :=
  ⟨[("a", ⟨"a", .CONCEPT, 1, [("A", 1)], [], none⟩)], [("a", [])], []⟩

/-- Two identical one-member clusters over `gC3`. -/
def k1 : Cluster := ⟨"c1", "a", 1, ["a"], ["a"], [("A", 1)], 1, 0.5, 0, [], []⟩

def k2 : Cluster := ⟨"c2", "a", 1, ["a"], ["a"], [("A", 1)], 1, 0.5, 0, [], []⟩

def pC3 : ClusterParams := ⟨0.55, 0.5, 7, 2⟩

/-- Two isolated CONCEPT nodes. -/
def gW4 : InteractionGraph :=
  ⟨[("X", ⟨"X", .CONCEPT, 0, [], [], none⟩),
    ("Y", ⟨"Y", .CONCEPT, 0, [], [], none⟩)],
   [("X", []), ("Y", [])], []⟩

def spW4 : SeedParams := ⟨0, 2⟩

def cpW4 : ClusterParams := ⟨0.55, 0.6, 7, 2⟩

/-! ## C2 — cluster growth is bounded reachability. -/

/-- C2: the member set grown from a seed is exactly the set of nodes
(including the seed) reachable from the seed within `max_growth_depth` hops
along edges of weight at least `edge_min` whose destination type is CONCEPT,
MOTIF, TENSION or TERM, and the members of the cluster
`grow_cluster_from_seed` returns are exactly that set. -/
theorem C2_growth_is_bounded_reachability (g : InteractionGraph)
    (params : ClusterParams) (seed : String) (sc : ℚ) (cid : String)
    (v : String) :
    (v ∈ grow_members g params.edge_min params.max_growth_depth seed ↔
      ReachLe (stepRel g (growStepOk g params.edge_min)) seed v
        params.max_growth_depth) ∧
    seed ∈ grow_members g params.edge_min params.max_growth_depth seed ∧
    ∀ c, grow_cluster_from_seed g seed sc cid params = some c →
      (v ∈ c.members ↔
        ReachLe (stepRel g (growStepOk g params.edge_min)) seed v
          params.max_growth_depth) := by
  have hiff : ∀ w,
      w ∈ grow_members g params.edge_min params.max_growth_depth seed ↔
        ReachLe (stepRel g (growStepOk g params.edge_min)) seed w
          params.max_growth_depth := by
    intro w
    rw [grow_members_iff_RSet, ← reachLe_iff_mem_RSet]
  refine ⟨hiff v, (hiff seed).mpr ⟨0, Nat.zero_le _, ReachN.base⟩, ?_⟩
  intro c hc
  simp only [grow_cluster_from_seed] at hc
  have hm := computeClusterProfiles_members hc
  rw [hm]
  show v ∈ (grow_members g params.edge_min params.max_growth_depth
      seed).mergeSort (fun a b => strLe a b) ↔ _
  rw [List.mem_mergeSort]
  exact hiff v

/-! ## C3 — termination of the merge fixed point. -/

/-- Well-formedness for merging: every member of every cluster resolves in
the node store (so no profile recomputation raises). -/
def MergeWF (g : InteractionGraph) (l : List Cluster) : Prop :=
  ∀ c ∈ l, ∀ nid ∈ c.members, (lookupA g.nodes nid).isSome

theorem dedupeGo_subset :
    ∀ (seen l : List String), ∀ x ∈ dedupeGo seen l, x ∈ l := by
  intro seen l
  induction l generalizing seen with
  | nil => intro x hx; cases hx
  | cons a t ih =>
      intro x hx
      rw [dedupeGo] at hx
      by_cases ha : a ∈ seen
      · rw [if_pos ha] at hx
        exact List.mem_cons_of_mem _ (ih seen x hx)
      · rw [if_neg ha] at hx
        rcases List.mem_cons.mp hx with rfl | hx2
        · exact List.mem_cons_self _ _
        · exact List.mem_cons_of_mem _ (ih _ x hx2)

theorem dedupe_subset (l : List String) : ∀ x ∈ dedupe l, x ∈ l :=
  dedupeGo_subset [] l

/-- Profiling succeeds on a cluster whose members all resolve. -/
theorem computeClusterProfiles_isSome {g : InteractionGraph} {c : Cluster}
    {params : ClusterParams}
    (hc : ∀ nid ∈ c.members, (lookupA g.nodes nid).isSome) :
    ∃ c2, computeClusterProfiles g c params = some c2 := by
  obtain ⟨pairs, hp⟩ := lookupAll_isSome hc
  exact ⟨_, by unfold computeClusterProfiles; rw [hp]; rfl⟩

/-- Merging two well-formed clusters succeeds and yields a well-formed
cluster (its members come from the two inputs). -/
theorem computeMerged_some {g : InteractionGraph} {params : ClusterParams}
    {ci cj : Cluster}
    (hci : ∀ nid ∈ ci.members, (lookupA g.nodes nid).isSome)
    (hcj : ∀ nid ∈ cj.members, (lookupA g.nodes nid).isSome) :
    ∃ m, computeMerged g params ci cj = some m ∧
      ∀ nid ∈ m.members, (lookupA g.nodes nid).isSome := by
  have hmem : ∀ nid ∈ (dedupe (ci.members ++ cj.members)).mergeSort
      (fun a b => strLe a b), (lookupA g.nodes nid).isSome := by
    intro nid hn
    rw [List.mem_mergeSort] at hn
    rcases List.mem_append.mp (dedupe_subset _ nid hn) with h | h
    · exact hci nid h
    · exact hcj nid h
  obtain ⟨m, hm⟩ := @computeClusterProfiles_isSome g (mkClusterRaw
    (ci.cluster_id ++ "+" ++ cj.cluster_id) ci.seed_node
    (max ci.seed_score cj.seed_score)
    ((dedupe (ci.members ++ cj.members)).mergeSort fun a b => strLe a b))
    params hmem
  refine ⟨m, ?_, ?_⟩
  · simpa only [computeMerged] using hm
  · intro nid hn
    have := computeClusterProfiles_members hm
    rw [this] at hn
    exact hmem nid hn

/-- The inner scan returns a cluster of the list and a sublist of it. -/
theorem extractFirstMergeable_mem {g : InteractionGraph}
    {params : ClusterParams} {c : Cluster} :
    ∀ {l : List Cluster} {d : Cluster} {t : List Cluster},
      extractFirstMergeable g params c l = some (d, t) →
      d ∈ l ∧ ∀ x ∈ t, x ∈ l := by
  intro l
  induction l with
  | nil => intro d t h; cases h
  | cons e rest ih =>
      intro d t h
      unfold extractFirstMergeable at h
      by_cases hm : should_merge g c e params = true
      · rw [if_pos hm] at h
        cases h
        exact ⟨List.mem_cons_self _ _, fun x hx => List.mem_cons_of_mem _ hx⟩
      · rw [if_neg hm] at h
        cases hrec : extractFirstMergeable g params c rest with
        | none => rw [hrec] at h; cases h
        | some pr =>
            rw [hrec, Option.map_some'] at h
            cases h
            obtain ⟨hd, ht⟩ := ih hrec
            refine ⟨List.mem_cons_of_mem _ hd, ?_⟩
            intro x hx
            rcases List.mem_cons.mp hx with rfl | hx2
            · exact List.mem_cons_self _ _
            · exact List.mem_cons_of_mem _ (ht x hx2)

/-- With sufficient fuel, a pass over a well-formed cluster list succeeds
and preserves well-formedness. -/
theorem mergePassF_total {g : InteractionGraph} {params : ClusterParams} :
    ∀ {fuel : ℕ} {l : List Cluster}, MergeWF g l → l.length < fuel →
      ∃ out m, mergePassF g params fuel l = some (out, m) ∧ MergeWF g out := by
  intro fuel
  induction fuel with
  | zero => intro l _ h; omega
  | succ fuel ih =>
      intro l hwf hlen
      cases l with
      | nil =>
          exact ⟨[], false, rfl, fun c hc => absurd hc (List.not_mem_nil c)⟩
      | cons c rest =>
          have hwfc : ∀ nid ∈ c.members, (lookupA g.nodes nid).isSome :=
            hwf c (List.mem_cons_self _ _)
          have hwfrest : MergeWF g rest :=
            fun d hd => hwf d (List.mem_cons_of_mem _ hd)
          rw [List.length_cons] at hlen
          cases hx : extractFirstMergeable g params c rest with
          | some pr =>
              obtain ⟨cj, rest'⟩ := pr
              obtain ⟨hcj, hsub⟩ := extractFirstMergeable_mem hx
              have hlen' := extractFirstMergeable_length hx
              have hwfrest' : MergeWF g rest' :=
                fun d hd => hwfrest d (hsub d hd)
              obtain ⟨merged, hmg, hmwf⟩ :=
                computeMerged_some hwfc (hwfrest cj hcj)
              obtain ⟨out1, m1, hout1, hwf1⟩ :=
                ih hwfrest' (by omega)
              refine ⟨merged :: out1, true, ?_, ?_⟩
              · rw [mergePassF, hx]
                dsimp only
                rw [hmg, Option.some_bind, hout1, Option.map_some']
              · intro d hd
                rcases List.mem_cons.mp hd with rfl | hd2
                · exact hmwf
                · exact hwf1 d hd2
          | none =>
              obtain ⟨out1, m1, hout1, hwf1⟩ := ih hwfrest (by omega)
              refine ⟨c :: out1, m1, ?_, ?_⟩
              · rw [mergePassF, hx]
                dsimp only
                rw [hout1, Option.map_some']
              · intro d hd
                rcases List.mem_cons.mp hd with rfl | hd2
                · exact hwfc
                · exact hwf1 d hd2

/-- With sufficient fuel, the merge fixed-point loop on a well-formed list
succeeds, never growing the cluster count. -/
theorem mergeLoop_total {g : InteractionGraph} {params : ClusterParams} :
    ∀ {fuel : ℕ} {l : List Cluster}, MergeWF g l → l.length < fuel →
      ∃ res, mergeLoop g params fuel l = some res ∧
        res.length ≤ l.length := by
  intro fuel
  induction fuel with
  | zero => intro l _ h; omega
  | succ fuel ih =>
      intro l hwf hlen
      obtain ⟨out, m, hout, hwfout⟩ :=
        mergePassF_total hwf (Nat.lt_succ_self _)
      have hspec := mergePassF_spec (Nat.lt_succ_self l.length) hout
      have hpass : mergePass g params l = some (out, m) := hout
      cases m with
      | false =>
          refine ⟨out, ?_, hspec.1⟩
          rw [mergeLoop, hpass]
      | true =>
          have hlt : out.length < l.length := hspec.2.1 rfl
          have hlen2 : out.length < fuel := by omega
          obtain ⟨res, hres, hreslen⟩ := ih hwfout hlen2
          refine ⟨res, ?_, le_trans hreslen (le_of_lt hlt)⟩
          rw [mergeLoop, hpass]
          exact hres

/-- C3: merging terminates. Every pass that merges strictly decreases the
cluster count, and on a well-formed input (every member resolves in the
node store, so no profile recomputation raises) the fixed-point iteration
of `merge_clusters` completes — with the cluster count never increasing —
at a list on which a further pass merges nothing. -/
theorem C3_merge_clusters_terminate (g : InteractionGraph)
    (clusters : List Cluster) (params : ClusterParams)
    (hwf : ∀ c ∈ clusters, ∀ nid ∈ c.members, (lookupA g.nodes nid).isSome) :
    (∀ l out, mergePass g params l = some (out, true) →
      out.length < l.length) ∧
    ∃ res, merge_clusters g clusters params = some res ∧
      res.length ≤ clusters.length ∧
      mergePass g params res = some (res, false) := by
  constructor
  · intro l out h
    exact (mergePassF_spec (Nat.lt_succ_self l.length) h).2.1 rfl
  · obtain ⟨res, hres, hlen⟩ :=
      @mergeLoop_total g params (clusters.length + 1) clusters hwf
        (Nat.lt_succ_self _)
    refine ⟨res, hres, hlen, mergeLoop_fix (Nat.lt_succ_self _) hres⟩

/-- Witness for C3: the two overlapping one-member clusters `k1`, `k2` on
the one-node graph `gC3` merge into one cluster and the loop stops. -/
theorem C3_witness :
    (∀ l out, mergePass gC3 pC3 l = some (out, true) →
      out.length < l.length) ∧
    ∃ res, merge_clusters gC3 [k1, k2] pC3 = some res ∧
      res.length ≤ [k1, k2].length ∧
      mergePass gC3 pC3 res = some (res, false) :=
  C3_merge_clusters_terminate gC3 [k1, k2] pC3 (by
    intro c hc nid hn
    have hnid : nid = "a" := by
      rcases List.mem_cons.mp hc with rfl | hc
      · simpa [k1] using hn
      · rcases List.mem_cons.mp hc with rfl | hc
        · simpa [k2] using hn
        · exact absurd hc (List.not_mem_nil c)
    rw [hnid]
    simp [gC3, lookupA])

/-! ## C4 — seed score minimum and pairwise separation. -/

/-- C4: on a node store without duplicate keys, every accepted seed scores
at least `seed_min` and is of seed-eligible type, and distinct accepted
seeds are pairwise separated: no later-accepted seed reaches an
earlier-accepted one within `seed_separation_distance` hops along edges of
weight at least `edge_min` between seed-eligible nodes (so their hop
distance is strictly greater); with a symmetric adjacency store the
separation holds in both directions. -/
theorem C4_seed_min_and_separation (g : InteractionGraph) (sp : SeedParams)
    (cp : ClusterParams) (hkeys : (g.nodes.map Prod.fst).Nodup) :
    (∀ x ∈ select_seeds g sp cp, sp.seed_min ≤ x.2 ∧
      ∃ nt, node_type g x.1 = some nt ∧ nt ∈ SEED_ALLOWED_TYPES) ∧
    (select_seeds g sp cp).Pairwise (fun a b =>
      a.1 ≠ b.1 ∧
        ¬ SeedHopReachLe g cp.edge_min b.1 a.1
          sp.seed_separation_distance) ∧
    (SymmAdj g →
      (select_seeds g sp cp).Pairwise (fun a b =>
        ¬ SeedHopReachLe g cp.edge_min a.1 b.1
          sp.seed_separation_distance)) := by
  obtain ⟨hmem, hpair⟩ := select_seeds_props g sp cp hkeys
  refine ⟨fun x hx => ⟨(hmem x hx).1, (hmem x hx).2⟩, ?_, ?_⟩
  · refine hpair.imp ?_
    intro a b h
    exact ⟨h.1, fun hr => h.2
      (reachLe_mono (fun u w hs => seedHopStep_imp_stepRel hs) hr)⟩
  · intro hsymm
    refine hpair.imp ?_
    intro a b h hr
    exact h.2 (reachLe_mono (fun u w hs => seedHopStep_imp_stepRel hs)
      (reachLe_symm (fun u w hs => seedHopStep_symm hsymm hs) hr))

/-- Witness for C4 on the two-node graph `gW4`: both isolated CONCEPT nodes
are accepted and the separation properties hold. -/
theorem C4_witness :
    (∀ x ∈ select_seeds gW4 spW4 cpW4, spW4.seed_min ≤ x.2 ∧
      ∃ nt, node_type gW4 x.1 = some nt ∧ nt ∈ SEED_ALLOWED_TYPES) ∧
    (select_seeds gW4 spW4 cpW4).Pairwise (fun a b =>
      a.1 ≠ b.1 ∧
        ¬ SeedHopReachLe gW4 cpW4.edge_min b.1 a.1
          spW4.seed_separation_distance) ∧
    (SymmAdj gW4 →
      (select_seeds gW4 spW4 cpW4).Pairwise (fun a b =>
        ¬ SeedHopReachLe gW4 cpW4.edge_min a.1 b.1
          spW4.seed_separation_distance)) :=
  C4_seed_min_and_separation gW4 spW4 cpW4 (by decide)

/-! ## C6 — the core ranking. -/

/-- A CONCEPT of weight 3 with no corpus support next to a CONCEPT of
weight 2 supported by three corpora. -/
def gC6 : InteractionGraph :=
  ⟨[("C:x", ⟨"C:x", .CONCEPT, 3, [], [], none⟩),
    ("C:y", ⟨"C:y", .CONCEPT, 2, [("A", 1), ("B", 1), ("K", 1)], [], none⟩)],
   [("C:x", []), ("C:y", [])], []⟩

def clC6 : Cluster := mkClusterRaw ("c") ("C:x") 0 ["C:x", "C:y"]

def pC6 : ClusterParams := ⟨0.55, 0.6, 1, 2⟩

/-- The profile the code computes for `clC6`: the single core slot goes to
the raw-weight leader `C:x`. -/
def c6out : Cluster :=
  ⟨"c", "C:x", 0, ["C:x", "C:y"], ["C:x"],
    [("A", 1), ("B", 1), ("K", 1)], 1, 0.5, 0, [], []⟩

/-- Evaluation of the code's profile of `clC6`. -/
theorem c6eval : computeClusterProfiles gC6 clC6 pC6 = some c6out := by
  have hall : lookupAll gC6 clC6.members =
      some [("C:x", ⟨"C:x", .CONCEPT, 3, [], [], none⟩),
            ("C:y", ⟨"C:y", .CONCEPT, 2, [("A", 1), ("B", 1), ("K", 1)], [],
              none⟩)] := by
    simp [lookupAll, lookupA, gC6, clC6, mkClusterRaw]
  have hAB : ¬ ("A":String) = "B" := by decide
  have hAK : ¬ ("A":String) = "K" := by decide
  have hBK : ¬ ("B":String) = "K" := by decide
  have hCT : ¬ NodeType.CONCEPT = NodeType.TENSION := by decide
  unfold computeClusterProfiles
  rw [hall, Option.map_some']
  norm_num [List.mergeSort, setA, lookupA, clC6, pC6, c6out, mkClusterRaw,
    hAB, hAK, hBK, hCT]

/-- C6 (amended): the code's core is the top `core_size` CONCEPT/MOTIF/
TENSION members ranked descending by raw node weight alone — no corpus
count and no glue penalty enter the ranking (the spec's semantic core score
is not what the source sorts by). -/
theorem C6_core_is_top_raw_weight (g : InteractionGraph) (c c2 : Cluster)
    (params : ClusterParams)
    (h : computeClusterProfiles g c params = some c2) :
    (∀ nid ∈ c2.core, nid ∈ c.members ∧
      ∃ n, lookupA g.nodes nid = some n ∧
        n.type ∈ [NodeType.CONCEPT, .MOTIF, .TENSION]) ∧
    c2.core.length =
      min params.core_size (c.members.filter (coreEligible g)).length ∧
    (∀ x ∈ c2.core, ∀ y ∈ c.members, y ∉ c2.core →
      ∀ nx ny, lookupA g.nodes x = some nx → lookupA g.nodes y = some ny →
        ny.type ∈ [NodeType.CONCEPT, .MOTIF, .TENSION] →
        ny.weight ≤ nx.weight) :=
  core_topK h

/-- Witness for the amended C6 theorem at the concrete profile of `clC6`. -/
theorem C6_witness :
    (∀ nid ∈ c6out.core, nid ∈ clC6.members ∧
      ∃ n, lookupA gC6.nodes nid = some n ∧
        n.type ∈ [NodeType.CONCEPT, .MOTIF, .TENSION]) ∧
    c6out.core.length =
      min pC6.core_size (clC6.members.filter (coreEligible gC6)).length ∧
    (∀ x ∈ c6out.core, ∀ y ∈ clC6.members, y ∉ c6out.core →
      ∀ nx ny, lookupA gC6.nodes x = some nx →
        lookupA gC6.nodes y = some ny →
        ny.type ∈ [NodeType.CONCEPT, .MOTIF, .TENSION] →
        ny.weight ≤ nx.weight) :=
  C6_core_is_top_raw_weight gC6 clC6 c6out pC6 c6eval

/-- C6 (counterexample): the claim says the core is ranked by the semantic
core score (distinct supporting corpora × 2 + weight, glue-penalized). On
`gC6` the member `C:y` has semantic core score 8 against 3 for `C:x`, yet
the code's single-slot core is `["C:x"]` — the code ranks by raw weight
(3 against 2) and ignores corpus support and the glue penalty. -/
theorem C6_counterexample :
    computeClusterProfiles gC6 clC6 pC6 = some c6out ∧
    c6out.core = ["C:x"] ∧
    ("C:y") ∈ clC6.members ∧ coreEligible gC6 ("C:y") = true ∧
    specSemanticCoreScore gC6 ("C:x") < specSemanticCoreScore gC6 ("C:y") := by
  refine ⟨c6eval, rfl, ?_, ?_, ?_⟩
  · simp [clC6, mkClusterRaw]
  · simp [coreEligible, lookupA, gC6]
  · have hx : spineLabel ("C:x") ∉ GLUE_TERMS := by decide
    have hy : spineLabel ("C:y") ∉ GLUE_TERMS := by decide
    have hxy : ¬ ("C:x":String) = "C:y" := by decide
    have hBA : ¬ ("B":String) = "A" := by decide
    have hKA : ¬ ("K":String) = "A" := by decide
    have hKB : ¬ ("K":String) = "B" := by decide
    norm_num [specSemanticCoreScore, lookupA, gC6, dedupe, dedupeGo,
      hx, hy, hxy, hBA, hKA, hKB]

/-! ## C9 — the seed candidate set. -/

/-- A graph holding one CONCEPT whose derived label is the glue term
`the`. -/
def gC9 : InteractionGraph :=
  ⟨[("C:concept::the", ⟨"C:concept::the", .CONCEPT, 0, [], [], none⟩)],
   [("C:concept::the", [])], []⟩

def sp9 : SeedParams := ⟨0, 2⟩

/-- C9 (amended): the candidate set of `select_seeds` is restricted by node
type only — every accepted seed is a CONCEPT, MOTIF or TENSION node — and
no glue/stop-term exclusion is applied anywhere in seed selection. -/
theorem C9_candidates_type_only (g : InteractionGraph) (sp : SeedParams)
    (cp : ClusterParams) (hkeys : (g.nodes.map Prod.fst).Nodup) :
    ∀ x ∈ select_seeds g sp cp,
      ∃ nt, node_type g x.1 = some nt ∧ nt ∈ SEED_ALLOWED_TYPES :=
  fun x hx => ((select_seeds_props g sp cp hkeys).1 x hx).2

/-- Evaluation of seed selection on `gC9`. -/
theorem c9eval : select_seeds gC9 sp9 cpW4 = [("C:concept::the", 0)] := by
  have hCT : ¬ NodeType.CONCEPT = NodeType.TENSION := by decide
  norm_num [hCT, select_seeds, selectStep, seed_score, degree_strong,
    too_close_to_existing_seed, tooCloseLoop, bfsVisit, seedStepOk,
    neighbors, node_type, lookupA, List.mergeSort, List.filterMap_cons,
    gC9, sp9, cpW4, min_def, SEED_ALLOWED_TYPES, DEGREE_ALLOWED_RELS,
    DEGREE_ALLOWED_NEIGHBORS]

/-- Witness for the amended C9 theorem on `gC9`: the one accepted seed is of
seed-eligible type. -/
theorem C9_witness :
    ∃ nt, node_type gC9 (("C:concept::the", (0:ℚ))).1 = some nt ∧
      nt ∈ SEED_ALLOWED_TYPES :=
  C9_candidates_type_only gC9 sp9 cpW4 (by decide) ("C:concept::the", 0)
    (by rw [c9eval]; exact List.mem_singleton.mpr rfl)

/-- C9 (counterexample): the claim says CONCEPT nodes whose derived label is
a glue/stop term are excluded from the candidate set. The CONCEPT node
`C:concept::the` of `gC9` derives the glue label `the`, yet `select_seeds`
accepts it as a seed. -/
theorem C9_counterexample :
    select_seeds gC9 sp9 cpW4 = [("C:concept::the", 0)] ∧
    node_type gC9 ("C:concept::the") = some NodeType.CONCEPT ∧
    spineLabel ("C:concept::the") = "the" ∧ ("the") ∈ GLUE_TERMS := by
  exact ⟨c9eval, by simp [node_type, lookupA, gC9], by decide, by decide⟩

/-! ## C10 — the shape of build_spines. -/

/-- A cluster whose core holds an id absent from the node store. -/
def badC10 : Cluster := ⟨"c", "n", 0, ["n"], ["ghost"], [], 1, 0.5, 0, [], []⟩

/-- C10 (amended): on input whose cluster cores and in-member tension nodes
all resolve in the node store, build_spines returns exactly three spines —
one each of type invariant, tension and delta — sorted by score in
non-increasing order. -/
theorem C10_build_spines_three_sorted (g : InteractionGraph)
    (clusters : List Cluster) (question_terms : List String) (m : MCurrent)
    (params : SpineParams) (hwf : SpineWF g clusters) :
    ∃ out, build_spines g clusters question_terms m params = some out ∧
      out.length = 3 ∧
      (out.map Spine.spine_type).Perm ["invariant", "tension", "delta"] ∧
      out.Pairwise (fun a b => b.score ≤ a.score) :=
  build_spines_shape g clusters question_terms m params hwf

/-- Witness for the amended C10 theorem on the empty graph and empty
cluster list. -/
theorem C10_witness :
    ∃ out, build_spines emptyGraph [] [] ⟨0.15⟩ ⟨2⟩ = some out ∧
      out.length = 3 ∧
      (out.map Spine.spine_type).Perm ["invariant", "tension", "delta"] ∧
      out.Pairwise (fun a b => b.score ≤ a.score) :=
  C10_build_spines_three_sorted emptyGraph [] [] ⟨0.15⟩ ⟨2⟩
    (fun c hc => absurd hc (List.not_mem_nil c))

/-- C10 (counterexample): the claim says every input yields exactly three
spines. A cluster whose core holds the unknown id `ghost` makes the source
raise (`g.nodes[nid]` inside the invariant spine pass), modelled as
build_spines returning `none` — no spine list at all. -/
theorem C10_counterexample :
    lookupA gC7.nodes ("ghost") = none ∧ ("ghost") ∈ badC10.core ∧
    build_spines gC7 [badC10] [] ⟨0.15⟩ ⟨2⟩ = none := by
  refine ⟨by simp [lookupA, gC7], by simp [badC10], ?_⟩
  have hng : ¬ ("n":String) = "ghost" := by decide
  norm_num [build_spines, question_region, spine_invariant, invStep,
    foldOption, lookupAll, lookupA, dedupe, dedupeGo, gC7, badC10,
    List.mergeSort, neighbors, node_type, hng]

end Y
